import Mathlib

/-!
Shallow embedding of the column-oriented Table of toyplot/data.py.

A Table is modelled as its ordered column dictionary: a list of
(name, column) pairs in insertion order, columns being 1-D lists.
Numpy 1-D (masked) arrays become plain Lean lists; Python / numpy
slice semantics are reproduced by `resolveSlc` (the CPython
`PySlice_GetIndicesEx` algorithm).  Python exceptions become the
`TErr` error type carried by `Except`; a Python function that can
fall off the end and return `None` returns the dedicated result
`GetRes.pyNone`.
-/

deriving instance DecidableEq for Except

namespace ToyData

/-- A Python `slice(start, stop, step)` object; `Option.none` is Python `None`. -/
structure Slc where
  start? : Option Int
  stop? : Option Int
  step? : Option Int
deriving Repr, DecidableEq

/-- The slice `slice(a, b)` built by the source at `table[i]` and `table[name, i]`. -/
def Slc.mk1 (a b : Int) : Slc := ⟨some a, some b, Option.none⟩

/-- The slice `slice(None, None, None)`. -/
def fullSlc : Slc := ⟨Option.none, Option.none, Option.none⟩

/-- CPython bound adjustment of an explicit slice bound: negative values count
from the end, then everything is clamped into `[lower, upper]`. -/
def adjIx (v L lower upper : Int) : Int :=
  if v < 0 then max (v + L) lower else min v upper

/-- The number of elements a resolved slice selects:
`ceil((stop - start) / step)` clamped at zero, oriented by the step sign. -/
def sliceCnt (start stop step : Int) : Nat :=
  (if 0 < step then (stop - start + step - 1) / step
   else (start - stop - step - 1) / (-step)).toNat

/-- CPython slice resolution: the list of element positions selected by a slice
over a sequence of length `len` (the `PySlice_GetIndicesEx` clamping rules,
followed by enumeration of `start + step * k`).  A zero step never reaches this
function in the modelled paths (it raises in Python); it yields `[]` here. -/
def resolveSlc (s : Slc) (len : Nat) : List Int :=
  let L : Int := (len : Int)
  let step : Int := s.step?.getD 1
  if step = 0 then []
  else
    let lower : Int := if step < 0 then -1 else 0
    let upper : Int := if step < 0 then L - 1 else L
    let start : Int :=
      (s.start?.map (fun v => adjIx v L lower upper)).getD
        (if step < 0 then upper else lower)
    let stop : Int :=
      (s.stop?.map (fun v => adjIx v L lower upper)).getD
        (if step < 0 then lower else upper)
    (List.range (sliceCnt start stop step)).map
      (fun k : Nat => start + step * (k : Int))

/-- `v[s]` for a 1-D sequence: numpy basic slicing.  All resolved positions are
in range (`resolveSlc_mem`), so the `getD` default is never consulted. -/
def sliceList [Inhabited α] (v : List α) (s : Slc) : List α :=
  (resolveSlc s v.length).map (fun i => v.getD i.toNat default)

/-- Python exceptions raised by the modelled code.  `otherErr` stands for the
incidental numpy / Python errors (IndexError, TypeError, ...) whose payload the
claims never inspect. -/
inductive TErr where
  | lengthMismatch (expected received : Nat)
  | keyError (name : String)
  | unsupportedAssignment
  | otherErr
deriving Repr, DecidableEq

/-- `v[idxs]` for a list of positions: numpy fancy indexing (negative positions
count from the end, out-of-range positions raise IndexError, and the result is
a fresh array). -/
def fancyIdx [Inhabited α] (v : List α) (idxs : List Int) : Except TErr (List α) :=
  idxs.mapM (fun i =>
    let j := if i < 0 then i + (v.length : Int) else i
    if 0 ≤ j ∧ j < (v.length : Int) then Except.ok (v.getD j.toNat default)
    else Except.error TErr.otherErr)

/-- The `Table._columns` ordered dictionary: (name, column) pairs in insertion
order. -/
abbrev Columns (α : Type) := List (String × List α)

/-- `self._columns.keys()`: the column names in column order. -/
def keysOf (cols : Columns α) : List String := cols.map Prod.fst

/-- `self._columns[name]` as an `Option`. -/
def lookupCol (cols : Columns α) (name : String) : Option (List α) :=
  (cols.find? (fun p => p.1 == name)).map Prod.snd

/-- `OrderedDict` assignment: replace in place when the key exists (keeping its
position), append otherwise. -/
def odSet (cols : Columns α) (name : String) (value : List α) : Columns α :=
  if cols.any (fun p => p.1 == name) then
    cols.map (fun p => if p.1 == name then (name, value) else p)
  else cols ++ [(name, value)]

/-- `Table.__setitem__` for a string key (`table[name] = value`), data.py
lines 200-209.  The incoming value is already a 1-D list, so the
`value.ndim != 1` rejection cannot fire; every existing column's shape is then
compared against the new value's, and the store happens only after all checks
pass — so a failed assignment leaves the table untouched. -/
def setCol (cols : Columns α) (name : String) (value : List α) :
    Except TErr (Columns α) :=
  match cols.find? (fun p => p.2.length != value.length) with
  | some p => Except.error (TErr.lengthMismatch p.2.length value.length)
  | Option.none => Except.ok (odSet cols name value)

/-- Python mutation semantics of `table[name] = value`: on an exception the
table object is left as it was. -/
def trySet (cols : Columns α) (name : String) (value : List α) :
    Columns α × Option TErr :=
  match setCol cols name value with
  | Except.ok c => (c, Option.none)
  | Except.error e => (cols, some e)

/-- The second component of an assignment index `table[name, sel] = value`. -/
inductive SetSel where
  | int (i : Int)
  | slc (s : Slc)
deriving Repr, DecidableEq

/-- The right-hand side of a slice assignment: a scalar (numpy broadcast fill)
or a 1-D array of matching length. -/
inductive SetVal (α : Type) where
  | scalar (a : α)
  | arr (l : List α)
deriving Repr, DecidableEq

/-- Write `vals` into `v` at the given positions. -/
def writeIdxs (v : List α) (idxs : List Nat) (vals : List α) : List α :=
  (idxs.zip vals).foldl (fun acc p => acc.set p.1 p.2) v

/-- `Table.__setitem__` for a `(name, int-or-slice)` key, data.py lines 211-215:
in-place element mutation `self._columns[name][sel] = value` of an existing
column (modelled by replacing the column with the updated list).  Numpy raises
for an absent column (KeyError), an out-of-range integer position (IndexError)
or a non-broadcastable value (ValueError). -/
def setSlice (cols : Columns α) (name : String) (sel : SetSel) (val : SetVal α) :
    Except TErr (Columns α) :=
  match lookupCol cols name with
  | Option.none => Except.error (TErr.keyError name)
  | some v =>
    match sel, val with
    | SetSel.int i, SetVal.scalar a =>
      let j := if i < 0 then i + (v.length : Int) else i
      if 0 ≤ j ∧ j < (v.length : Int) then
        Except.ok (odSet cols name (v.set j.toNat a))
      else Except.error TErr.otherErr
    | SetSel.slc s, SetVal.scalar a =>
      if s.step? = some 0 then Except.error TErr.otherErr
      else
        let idxs := (resolveSlc s v.length).map Int.toNat
        Except.ok (odSet cols name (idxs.foldl (fun acc i => acc.set i a) v))
    | SetSel.slc s, SetVal.arr l =>
      if s.step? = some 0 then Except.error TErr.otherErr
      else
        let idxs := (resolveSlc s v.length).map Int.toNat
        if l.length = idxs.length then
          Except.ok (odSet cols name (writeIdxs v idxs l))
        else Except.error TErr.otherErr
    | SetSel.int _, SetVal.arr _ => Except.error TErr.otherErr

/-- `Table.__delitem__`, data.py lines 219-220: OrderedDict deletion. -/
def delCol (cols : Columns α) (name : String) : Except TErr (Columns α) :=
  if cols.any (fun p => p.1 == name) then
    Except.ok (cols.filter (fun p => !(p.1 == name)))
  else Except.error (TErr.keyError name)

/-- `Table.__len__`, data.py lines 222-223: the length of the first column, 0
for a table without columns. -/
def tblLen (cols : Columns α) : Nat :=
  match cols with
  | [] => 0
  | p :: _ => p.2.length

/-- `Table.shape`, data.py lines 260-271. -/
def tblShape (cols : Columns α) : Nat × Nat := (tblLen cols, cols.length)

/-! ### Duplicate-name resolution (Table.__init__, data.py lines 109-136) -/

/-- The renamed form `"%s-%s" % (key, suffix)`. -/
def renamed (base : String) (n : Nat) : String := base ++ "-" ++ toString n

/-- The `while "%s-%s" % (key, suffix) in reserved_keys: suffix += 1` loop.
The fuel argument (always called with more fuel than `reserved` has entries)
makes termination structural; `findSuffix_spec` shows the fuel is never
exhausted. -/
def findSuffix (reserved : List String) (base : String) : Nat → Nat → Nat
  | 0, s => s
  | fuel + 1, s =>
    if renamed base s ∈ reserved then findSuffix reserved base fuel (s + 1) else s

/-- One iteration of `for i in numpy.flatnonzero(keys == key)`: state is
(keys array, reserved_keys, suffix). -/
def occStep (base : String) (st : List String × List String × Nat) (i : Nat) :
    List String × List String × Nat :=
  let ks := st.1
  let reserved := st.2.1
  let suffix := st.2.2
  if base ∈ reserved then
    let s := findSuffix reserved base (reserved.length + 1) suffix
    (ks.set i (renamed base s), renamed base s :: reserved, s)
  else
    (ks, base :: reserved, suffix)

/-- Processing of one duplicated key: recompute `numpy.flatnonzero(keys == key)`
against the current (possibly already altered) keys array, then rename its
occurrences left to right with a suffix counter starting at 1. -/
def groupStep (st : List String × List String) (base : String) :
    List String × List String :=
  let idxs := (List.range st.1.length).filter (fun i => st.1.getD i "" == base)
  let r := idxs.foldl (occStep base) (st.1, st.2, 1)
  (r.1, r.2.1)

/-- Lexicographic comparison of character lists by code point — the ordering
Python uses on `str` (and numpy on object arrays of strings). -/
def charListLe : List Char → List Char → Bool
  | [], _ => true
  | _ :: _, [] => false
  | a :: as, b :: bs =>
    if a.toNat < b.toNat then true
    else if b.toNat < a.toNat then false
    else charListLe as bs

/-- Python string comparison. -/
def strLe (a b : String) : Bool := charListLe a.data b.data

/-- Sorted insertion of a string into a list. -/
def insertSorted (x : String) : List String → List String
  | [] => [x]
  | y :: ys => if strLe x y then x :: y :: ys else y :: insertSorted x ys

/-- Insertion sort (structurally recursive so that concrete instances reduce
inside the kernel; extensionally it is the unique stable sort). -/
def sortStrings (l : List String) : List String := l.foldr insertSorted []

/-- `numpy.unique`: the distinct values, sorted. -/
def sortedUnique (keys : List String) : List String :=
  sortStrings keys.dedup

/-- The duplicate-name resolution of `Table.__init__` (data.py lines 109-132):
reserve the singleton names, then process each duplicated name (in
`numpy.unique`'s sorted order) with `groupStep`. -/
def dedupKeys (keys : List String) : List String :=
  (((sortedUnique keys).filter (fun k => 1 < keys.count k)).foldl groupStep
    (keys, (sortedUnique keys).filter (fun k => keys.count k == 1))).1

/-- One step of the deduplication REFERENCE algorithm, following the claim's
words (spec section 4.1 / claim C1) rather than the source: process the source
names left to right; a name occurring exactly once is kept; the first
occurrence of a duplicated base name keeps the bare base name and reserves it;
every later occurrence becomes `base-n` for the smallest positive `n` such
that `base-n` is not already a reserved name, and the new name is reserved.
Singleton names are reserved from the start. -/
def specStep (orig : List String) (st : List String × List String) (p : Nat × String) :
    List String × List String :=
  let out := st.1
  let reserved := st.2
  let i := p.1
  let k := p.2
  if orig.count k == 1 then (out ++ [k], reserved)
  else if (orig.take i).count k == 0 then (out ++ [k], k :: reserved)
  else
    let s := findSuffix reserved k (reserved.length + 1) 1
    (out ++ [renamed k s], renamed k s :: reserved)

/-- The deduplicated name list as described by the claim (reference
definition, to be compared with the source's `dedupKeys`). -/
def dedupSpecNames (keys : List String) : List String :=
  ((keys.enum).foldl (specStep keys) ([], keys.filter (fun k => keys.count k == 1))).1

/-- The structural decimal digit list of a number (most significant first);
`decDigits_eq_toDigits` identifies it with core's fuelled `Nat.toDigits 10`. -/
def decDigits (n : Nat) : List Char :=
  if _h : n < 10 then [Nat.digitChar n]
  else decDigits (n / 10) ++ [Nat.digitChar (n % 10)]
decreasing_by exact Nat.div_lt_self (by omega) (by omega)

/-- The singleton names reserved before any renaming happens
(`reserved_keys` right after data.py line 117). -/
def singlesOf (keys : List String) : List String :=
  (sortedUnique keys).filter (fun k => keys.count k == 1)

/-- The suffix used for the k-th renamed occurrence of a duplicated base name
(k = 1 for the first renamed occurrence): each renamed occurrence takes the
least suffix that is larger than the previous one and whose renamed form does
not collide with a reserved singleton name. -/
def grpSuffix (R0 : List String) (b : String) : Nat → Nat
  | 0 => 0
  | k + 1 => findSuffix R0 b (R0.length + 1) (grpSuffix R0 b k + 1)

/-- Closed form of the deduplicated name at position `i`: singleton names and
first occurrences are kept, the occurrence with `k` earlier copies becomes
`base-(grpSuffix k)`. -/
def canonName (keys : List String) (i : Nat) : String :=
  if keys.count (keys.getD i "") = 1 then keys.getD i ""
  else if (keys.take i).count (keys.getD i "") = 0 then keys.getD i ""
  else renamed (keys.getD i "")
    (grpSuffix (singlesOf keys) (keys.getD i "")
      ((keys.take i).count (keys.getD i "")))

/-- The whole deduplicated name list in closed form. -/
def canonNames (keys : List String) : List String :=
  (List.range keys.length).map (canonName keys)

/-- No duplicated name extends another duplicated name by a dash suffix (the
side condition under which the source's group-by-group renaming cannot
interfere across base names). -/
def DashFreeDups (keys : List String) : Prop :=
  ∀ b ∈ keys, ∀ b2 ∈ keys, 1 < keys.count b → 1 < keys.count b2 → b ≠ b2 →
    ¬ (b.data ++ ['-']) <+: b2.data

/-- `numpy.flatnonzero(keys == key)`: the positions of `b` in `l`, in
increasing order. -/
def posList (l : List String) (b : String) : List Nat :=
  (List.range l.length).filter (fun i => l.getD i "" == b)

/-- `Table.__init__` from an ordered list of (name, values) pairs (data.py
lines 87-89 and 109-136): deduplicate the name list, then store each pair
through `self[key] = value`.  Construction from the other recognized source
shapes (ordered mappings, other tables, npz files, sorted plain mappings, 2-D
arrays, data frames) produces a (keys, values) pair list and continues
identically, so this function covers every construction path. -/
def mkTable (data : List (String × List α)) : Except TErr (Columns α) :=
  ((dedupKeys (data.map Prod.fst)).zip (data.map Prod.snd)).foldlM
    (fun cols p => setCol cols p.1 p.2) []

/-! ### The read path (Table.__getitem__, data.py lines 139-196) -/

/-- The shape of a Python read-index expression, as inspected by
`Table.__getitem__`: a string, an integer, a slice, a list of integers, a list
of strings (numpy character array), Python `None`, or a pair. -/
inductive Ix where
  | str (s : String)
  | int (i : Int)
  | slc (s : Slc)
  | ints (l : List Int)
  | strs (l : List String)
  | none
  | tup (a b : Ix)
deriving Repr, DecidableEq

/-- The result of `Table.__getitem__`: a raw column slice, a new sub-Table, or
Python `None` (the implicit return when the final guard fails). -/
inductive GetRes (α : Type) where
  | col (v : List α)
  | tbl (t : Columns α)
  | pyNone
deriving Repr, DecidableEq

/-- `column[sel]` for a 1-D numpy column, for the selector shapes that can
reach this point: a slice (ValueError on step 0), a list of positions (fancy
indexing), anything else an incidental numpy error. -/
def applySel [Inhabited α] (v : List α) (sel : Ix) : Except TErr (List α) :=
  match sel with
  | Ix.slc s => if s.step? = some 0 then Except.error TErr.otherErr
                else Except.ok (sliceList v s)
  | Ix.ints l => fancyIdx v l
  | _ => Except.error TErr.otherErr

/-- One element of the comprehension
`[(column, self._columns[column][row_slice]) for column in columns]`:
dictionary lookup (KeyError on an absent or non-string key), then row
selection. -/
def colEntryGet [Inhabited α] (cols : Columns α) (rs : Ix) (e : Ix) :
    Except TErr (String × List α) :=
  match e with
  | Ix.str nm =>
    match lookupCol cols nm with
    | Option.none => Except.error (TErr.keyError nm)
    | some v => (applySel v rs).map (fun w => (nm, w))
  | _ => Except.error TErr.otherErr

/-- `Table([(column, self._columns[column][row_slice]) for column in columns])`. -/
def buildSub [Inhabited α] (cols : Columns α) (es : List Ix) (rs : Ix) :
    Except TErr (GetRes α) :=
  match es.mapM (colEntryGet cols rs) with
  | Except.error e => Except.error e
  | Except.ok pairs => (mkTable pairs).map GetRes.tbl

/-- The iteration `for column in columns` of the second phase: which column
entries the `columns` value yields.  `Option.none` means the Python value
`columns = None` (the final guard then fails).  Iterating an integer or a
slice object raises TypeError; a pair iterates its two components. -/
def colEntries (b : Ix) : Option (Except TErr (List Ix)) :=
  match b with
  | Ix.str s => some (Except.ok [Ix.str s])
  | Ix.strs l => some (Except.ok (l.map Ix.str))
  | Ix.ints l => some (Except.ok (l.map Ix.int))
  | Ix.none => Option.none
  | Ix.int _ => some (Except.error TErr.otherErr)
  | Ix.slc _ => some (Except.error TErr.otherErr)
  | Ix.tup x y => some (Except.ok [x, y])

/-- `Table.__getitem__` (data.py lines 139-196), by the source's two phases:
first the cases that return a bare column (string index, or a tuple whose
first component is a string), then the cases that build a sub-Table from a row
selector and a column iterable; when either of those resolves to Python `None`
the final guard fails and the function implicitly returns `None`. -/
def getItem [Inhabited α] (cols : Columns α) (ix : Ix) : Except TErr (GetRes α) :=
  let phase1 : Option String × Option Ix :=
    match ix with
    | Ix.str s => (some s, some (Ix.slc fullSlc))
    | Ix.tup (Ix.str s) b =>
      (some s,
        match b with
        | Ix.int i => some (Ix.slc (Slc.mk1 i (i + 1)))
        | Ix.none => Option.none
        | b => some b)
    | _ => (Option.none, Option.none)
  match phase1 with
  | (some c, some cs) =>
    match lookupCol cols c with
    | Option.none => Except.error (TErr.keyError c)
    | some v => (applySel v cs).map GetRes.col
  | _ =>
    let rowSel : Option Ix :=
      match ix with
      | Ix.int i => some (Ix.slc (Slc.mk1 i (i + 1)))
      | Ix.slc s => some (Ix.slc s)
      | Ix.tup a _ =>
        match a with
        | Ix.int i => some (Ix.slc (Slc.mk1 i (i + 1)))
        | Ix.none => Option.none
        | a => some a
      | Ix.ints l => some (Ix.ints l)
      | Ix.strs _ => some (Ix.slc fullSlc)
      | Ix.none => some Ix.none
      | Ix.str _ => Option.none
    let entries : Option (Except TErr (List Ix)) :=
      match ix with
      | Ix.int _ => some (Except.ok ((keysOf cols).map Ix.str))
      | Ix.slc _ => some (Except.ok ((keysOf cols).map Ix.str))
      | Ix.ints _ => some (Except.ok ((keysOf cols).map Ix.str))
      | Ix.none => some (Except.ok ((keysOf cols).map Ix.str))
      | Ix.strs l => some (Except.ok (l.map Ix.str))
      | Ix.tup _ b => colEntries b
      | Ix.str _ => Option.none
    match rowSel, entries with
    | some rs, some es =>
      match es with
      | Except.error e => Except.error e
      | Except.ok entryList => buildSub cols entryList rs
    | _, _ => Except.ok GetRes.pyNone

/-! ### Reachable tables -/

/-- All columns of the table have the row count reported by `tblLen`. -/
def EqLens (cols : Columns α) : Prop := ∀ p ∈ cols, p.2.length = tblLen cols

/-- The stored column names are pairwise distinct. -/
def NodupKeys (cols : Columns α) : Prop := (keysOf cols).Nodup

/-- The tables reachable through the public interface: empty construction, any
construction from (name, values) pairs, and any sequence of successful
name-keyed assignments, slice assignments and deletions. -/
inductive Reach {α : Type} : Columns α → Prop where
  | emptyTable : Reach []
  | construct (data : List (String × List α)) (t : Columns α) :
      mkTable data = Except.ok t → Reach t
  | assign (t t' : Columns α) (name : String) (v : List α) :
      Reach t → setCol t name v = Except.ok t' → Reach t'
  | assignSlice (t t' : Columns α) (name : String) (sel : SetSel) (val : SetVal α) :
      Reach t → setSlice t name sel val = Except.ok t' → Reach t'
  | remove (t t' : Columns α) (name : String) :
      Reach t → delCol t name = Except.ok t' → Reach t'

/-! ### Storage-level model (numpy views)

The pure model above is extensionally faithful but cannot express storage
sharing.  The claims about aliasing need the one fact the pure model erases:
`self._columns[column][row_slice]` with a slice is a numpy VIEW of the parent
array, and `numpy.ma.array(value)` in `__setitem__` does not copy
(`copy=False` is the default), so a sub-Table built by `__getitem__` shares
its parent's buffers.  Here a buffer store is explicit: a column is a `View`,
a base-buffer id plus the list of base positions it presents. -/

/-- A numpy view: a base buffer and the base positions it exposes, in order.
A freshly allocated array of length n is `⟨b, List.range n⟩` for a new `b`. -/
structure View where
  base : Nat
  idxs : List Nat
deriving Repr, DecidableEq

/-- The buffer store: buffer id to contents. -/
abbrev Store (α : Type) := List (List α)

/-- The column contents a view presents, under the current store. -/
def readView [Inhabited α] (st : Store α) (v : View) : List α :=
  v.idxs.map (fun i => (st.getD v.base []).getD i default)

/-- Slicing a view (`column[row_slice]` with a slice): a view onto the same
base buffer, with the selected positions composed. -/
def viewSlice (v : View) (s : Slc) : View :=
  ⟨v.base, (resolveSlc s v.idxs.length).map (fun i => v.idxs.getD i.toNat 0)⟩

/-- A Table at storage level: ordered (name, view) pairs. -/
abbrev TableS := List (String × View)

/-- The sub-Table built by `table[rowslice]` (or `table[i]`) at storage level:
`Table([(c, self._columns[c][row_slice]) for c in self._columns.keys()])`.
Each column of the result is a view of the parent's buffer (numpy basic
slicing returns views and `numpy.ma.array` does not copy), and for a table
with distinct names the constructor's dedup keeps every name, so the names
and their order are unchanged. -/
def subTableRows (t : TableS) (s : Slc) : TableS :=
  t.map (fun p => (p.1, viewSlice p.2 s))

/-- `table[name, j] = a` at storage level (`__setitem__` lines 211-215):
write through the named view into its base buffer. -/
def writeElem (st : Store α) (t : TableS) (name : String) (j : Int) (a : α) :
    Except TErr (Store α) :=
  match (t.find? (fun p => p.1 == name)).map Prod.snd with
  | Option.none => Except.error (TErr.keyError name)
  | some v =>
    let jj := if j < 0 then j + (v.idxs.length : Int) else j
    if h : 0 ≤ jj ∧ jj.toNat < v.idxs.length then
      let pos := v.idxs.get ⟨jj.toNat, h.2⟩
      Except.ok (st.set v.base ((st.getD v.base []).set pos a))
    else Except.error TErr.otherErr

/-! ### The delimited-text loader (read_csv, data.py lines 331-366) -/

/-- A cell of a loaded table: text as read, or a number after conversion.
Numpy's float64 is modelled by ℚ restricted to exact decimal literals; the
claims under scrutiny only concern which columns get converted, not float
rounding. -/
inductive Cell where
  | txt (s : String)
  | num (q : ℚ)
deriving Repr, DecidableEq, Inhabited

/-- Decimal digit run to a number. -/
def digitsToNat (ds : List Char) : Nat :=
  ds.foldl (fun a c => 10 * a + (c.toNat - 48)) 0

/-- Exponent part after `e`/`E`: optional sign then digits; the `Bool` records
whether at least one digit was present. -/
def pfExp : List Char → Bool × Int × List Char
  | '+' :: r =>
    let p := r.span Char.isDigit
    (!p.1.isEmpty, (digitsToNat p.1 : Int), p.2)
  | '-' :: r =>
    let p := r.span Char.isDigit
    (!p.1.isEmpty, -(digitsToNat p.1 : Int), p.2)
  | r =>
    let p := r.span Char.isDigit
    (!p.1.isEmpty, (digitsToNat p.1 : Int), p.2)

/-- Mantissa and exponent after the optional sign: `digits[.digits][(e|E)exp]`,
requiring at least one mantissa digit and nothing left over.  The value
`sign * mantissa * 10^exponent` is assembled with integer arithmetic and one
final `mkRat`. -/
def pfBody (cs : List Char) (sign : Int) : Option ℚ :=
  let ip := cs.span Char.isDigit
  let fp : List Char × List Char :=
    match ip.2 with
    | '.' :: r => r.span Char.isDigit
    | _ => ([], ip.2)
  let rest2 : List Char :=
    match ip.2 with
    | '.' :: _ => fp.2
    | _ => ip.2
  let ex : Bool × Int × List Char :=
    match rest2 with
    | 'e' :: r => pfExp r
    | 'E' :: r => pfExp r
    | r => (true, 0, r)
  if ex.2.2 = [] ∧ (!ip.1.isEmpty ∨ !fp.1.isEmpty) ∧ ex.1 then
    let mantNum : Int :=
      ((digitsToNat ip.1 * 10 ^ fp.1.length + digitsToNat fp.1 : Nat) : Int)
    let e := ex.2.1
    some (mkRat (sign * mantNum * 10 ^ e.toNat)
      (10 ^ fp.1.length * 10 ^ (-e).toNat))
  else Option.none

/-- Model of float64 parsing (`.astype("float64")` on one string): optional
surrounding spaces, optional sign, decimal mantissa, optional exponent.
(The special values inf/nan are outside this exact-decimal model.) -/
def parseFloat? (s : String) : Option ℚ :=
  let cs := ((s.data.dropWhile (fun c => c = ' ')).reverse.dropWhile
    (fun c => c = ' ')).reverse
  match cs with
  | '+' :: r => pfBody r 1
  | '-' :: r => pfBody r (-1)
  | r => pfBody r 1

/-- One cell under `.astype("float64")`. -/
def parseCell : Cell → Option ℚ
  | Cell.txt s => parseFloat? s
  | Cell.num q => some q

/-- The conversion a whole column undergoes inside
`try: result[name] = result[name].astype("float64") except: pass`:
if every cell parses the column becomes numeric, otherwise it is left
exactly as it was. -/
def convertCol (c : List Cell) : List Cell :=
  match c.mapM parseCell with
  | some qs => qs.map Cell.num
  | Option.none => c

/-- One iteration of the `if convert:` loop of read_csv:
`try: result[name] = result[name].astype("float64") except: pass` — the
conversion failure (or any other exception) is swallowed and the column
kept. -/
def convertStep (acc : Columns Cell) (nm : String) : Columns Cell :=
  match lookupCol acc nm with
  | Option.none => acc
  | some c =>
    match c.mapM parseCell with
    | some qs =>
      match setCol acc nm (qs.map Cell.num) with
      | Except.ok acc2 => acc2
      | Except.error _ => acc
    | Option.none => acc

/-- The `if convert:` loop of read_csv: for each column name in order, try the
float conversion and reassign. -/
def convertFold (t : Columns Cell) : Columns Cell :=
  (keysOf t).foldl convertStep t

/-- The (name, values) pairs read_csv passes to the Table constructor:
`columns = zip(*rows)` truncates every row to the shortest row's length and
each column contributes `(column[0], column[1:])`. -/
def csvPairs (rows : List (List String)) : List (String × List Cell) :=
  ((List.range (((rows.map List.length).min?).getD 0)).map
    (fun j => rows.map (fun r => r.getD j ""))).map
    (fun c => (c.headD "", c.tail.map Cell.txt))

/-- `read_csv` (data.py lines 331-366) on the rows delivered by the external
csv reader; with `convert` the per-column float conversion is attempted. -/
def read_csv (rows : List (List String)) (convert : Bool) :
    Except TErr (Columns Cell) :=
  match mkTable (csvPairs rows) with
  | Except.error e => Except.error e
  | Except.ok t => Except.ok (if convert then convertFold t else t)

/-! ## Basic lemmas about the column dictionary -/

theorem any_key_iff (cols : Columns α) (name : String) :
    cols.any (fun p => p.1 == name) = true ↔ name ∈ keysOf cols := by
  simp [List.any_eq_true, keysOf, List.mem_map, beq_iff_eq]

theorem odSet_fresh (cols : Columns α) (name : String) (v : List α)
    (h : name ∉ keysOf cols) : odSet cols name v = cols ++ [(name, v)] := by
  unfold odSet
  rw [if_neg]
  intro hc
  exact h ((any_key_iff cols name).mp hc)

theorem keysOf_append (c1 c2 : Columns α) :
    keysOf (c1 ++ c2) = keysOf c1 ++ keysOf c2 := by
  simp [keysOf]

theorem keysOf_odSet_mem (cols : Columns α) (name : String) (v : List α)
    (h : name ∈ keysOf cols) : keysOf (odSet cols name v) = keysOf cols := by
  unfold odSet
  rw [if_pos ((any_key_iff cols name).mpr h)]
  unfold keysOf
  rw [List.map_map]
  apply List.map_congr_left
  intro p _
  simp only [Function.comp_apply]
  rcases eq_or_ne p.1 name with he | he
  · simp [he]
  · simp [he]

theorem setCol_ok_iff (cols : Columns α) (name : String) (v : List α)
    (u : Columns α) :
    setCol cols name v = Except.ok u ↔
      (∀ p ∈ cols, p.2.length = v.length) ∧ u = odSet cols name v := by
  unfold setCol
  rcases hf : cols.find? (fun p => p.2.length != v.length) with _ | p
  · rw [hf]
    show Except.ok (odSet cols name v) = Except.ok u ↔ _
    simp only [Except.ok.injEq]
    constructor
    · intro hu
      refine ⟨?_, hu.symm⟩
      intro q hq
      have := List.find?_eq_none.mp hf q hq
      simpa using this
    · intro h
      exact h.2.symm
  · rw [hf]
    show Except.error (TErr.lengthMismatch p.2.length v.length) = Except.ok u ↔ _
    simp only [reduceCtorEq, false_iff, not_and]
    intro hall _
    have h1 := List.find?_some hf
    have h2 := List.mem_of_find?_eq_some hf
    have := hall p h2
    simp [this] at h1

theorem setCol_lens (cols : Columns α) (name : String) (v : List α)
    (u : Columns α) (h : setCol cols name v = Except.ok u) :
    ∀ p ∈ u, p.2.length = v.length := by
  obtain ⟨hall, rfl⟩ := (setCol_ok_iff cols name v u).mp h
  intro p hp
  unfold odSet at hp
  split at hp
  · rcases List.mem_map.mp hp with ⟨q, hq, rfl⟩
    split
    · rfl
    · exact hall q hq
  · rcases List.mem_append.mp hp with h1 | h1
    · exact hall p h1
    · simp only [List.mem_singleton] at h1
      subst h1
      rfl

/-! ## C3: length-mismatch on name-keyed assignment -/

/-- C3: on a table that already holds at least one column, assigning a 1-D
column whose length differs from the row count through `table[name] = values`
raises a length-mismatch error carrying the expected (current row count) and
received (new column length) counts, and the table is left unchanged (the
source checks every column before storing anything, which `trySet` captures:
the pair returned is (unchanged table, raised error)). -/
theorem assign_length_mismatch (t : Columns α) (name : String) (v : List α)
    (hlen : EqLens t) (hne : t ≠ []) (hmis : v.length ≠ tblLen t) :
    trySet t name v = (t, some (TErr.lengthMismatch (tblLen t) v.length)) := by
  match t, hne with
  | p :: rest, _ =>
    have hp : p.2.length = tblLen (p :: rest) := hlen p (List.mem_cons_self _ _)
    have hcond : (fun q : String × List α => q.2.length != v.length) p = true := by
      simp only [bne_iff_ne, ne_eq]
      rw [hp]
      exact fun hc => hmis hc.symm
    have hfind : List.find? (fun q : String × List α => q.2.length != v.length)
        (p :: rest) = some p := List.find?_cons_of_pos _ hcond
    unfold trySet setCol
    rw [hfind]
    show (p :: rest, some (TErr.lengthMismatch p.2.length v.length)) = _
    rw [hp]

/-- Witness for C3 at a concrete input. -/
theorem assign_length_mismatch_witness :
    trySet [("a", [1, 2])] "b" ([1, 2, 3] : List Int) =
      ([("a", [1, 2])], some (TErr.lengthMismatch 2 3)) :=
  assign_length_mismatch [("a", [1, 2])] "b" [1, 2, 3]
    (by unfold EqLens; decide) (by decide) (by decide)

/-! ## C2: the shared-row-count invariant -/

theorem eqLens_of_const (u : Columns α) (L : Nat)
    (h : ∀ p ∈ u, p.2.length = L) : EqLens u := by
  match u with
  | [] => intro p hp; cases hp
  | q :: rest =>
    intro p hp
    have hq : q.2.length = L := h q (List.mem_cons_self _ _)
    have : tblLen (q :: rest) = L := hq
    rw [this]
    exact h p hp

theorem exceptBind_ok {β γ : Type} {f : Except TErr β} {g : β → Except TErr γ}
    {c : γ} (h : (f >>= g) = Except.ok c) :
    ∃ b, f = Except.ok b ∧ g b = Except.ok c := by
  cases f with
  | error e => simp [Bind.bind, Except.bind] at h
  | ok b => exact ⟨b, rfl, by simpa [Bind.bind, Except.bind] using h⟩

theorem foldlM_setCol_lens (l : List (String × List α)) (acc t : Columns α)
    (hacc : EqLens acc)
    (h : l.foldlM (fun cols p => setCol cols p.1 p.2) acc = Except.ok t) :
    EqLens t := by
  induction l generalizing acc with
  | nil => simp only [List.foldlM_nil] at h; cases h; exact hacc
  | cons p l ih =>
    rw [List.foldlM_cons] at h
    obtain ⟨mid, hmid, hrest⟩ := exceptBind_ok h
    exact ih mid (eqLens_of_const mid p.2.length (setCol_lens acc p.1 p.2 mid hmid)) hrest

theorem mkTable_eqLens (data : List (String × List α)) (t : Columns α)
    (h : mkTable data = Except.ok t) : EqLens t := by
  unfold mkTable at h
  exact foldlM_setCol_lens _ [] t (fun p hp => by cases hp) h

theorem length_foldl_set (idxs : List Nat) (v : List α) (a : α) :
    (idxs.foldl (fun acc i => acc.set i a) v).length = v.length := by
  induction idxs generalizing v with
  | nil => rfl
  | cons i idxs ih => rw [List.foldl_cons, ih, List.length_set]

theorem length_writeIdxs (pl : List (Nat × α)) (v : List α) :
    (pl.foldl (fun acc p => acc.set p.1 p.2) v).length = v.length := by
  induction pl generalizing v with
  | nil => rfl
  | cons q pl ih => rw [List.foldl_cons, ih, List.length_set]

theorem lookupCol_mem (cols : Columns α) (name : String) (v : List α)
    (h : lookupCol cols name = some v) : (name, v) ∈ cols := by
  unfold lookupCol at h
  rcases hf : cols.find? (fun p => p.1 == name) with _ | q
  · rw [hf] at h; cases h
  · rw [hf] at h
    have h1 := List.find?_some hf
    have h2 := List.mem_of_find?_eq_some hf
    cases h
    have : q.1 = name := beq_iff_eq.mp h1
    rw [← this]
    exact h2

theorem odSet_mem_shape (cols : Columns α) (name : String) (w : List α)
    (p : String × List α) (hp : p ∈ odSet cols name w) :
    p ∈ cols ∨ p.2 = w := by
  unfold odSet at hp
  split at hp
  · rcases List.mem_map.mp hp with ⟨q, hq, rfl⟩
    split
    · right; rfl
    · left; exact hq
  · rcases List.mem_append.mp hp with h1 | h1
    · left; exact h1
    · simp only [List.mem_singleton] at h1
      subst h1
      right; rfl

theorem setSlice_eqLens (cols : Columns α) (name : String) (sel : SetSel)
    (val : SetVal α) (u : Columns α) (hE : EqLens cols)
    (h : setSlice cols name sel val = Except.ok u) : EqLens u := by
  rcases hl : lookupCol cols name with _ | v
  · simp only [setSlice, hl] at h
    cases h
  · have main : ∀ w : List α, w.length = v.length → u = odSet cols name w →
        EqLens u := by
      intro w hw hu
      subst hu
      apply eqLens_of_const _ (tblLen cols)
      intro p hp
      rcases odSet_mem_shape cols name w p hp with h1 | h1
      · exact hE p h1
      · rw [h1, hw]
        exact hE _ (lookupCol_mem cols name v hl)
    rcases sel with i | s <;> rcases val with a | l <;>
      simp only [setSlice, hl] at h
    · split at h <;> split at h <;>
        first
        | (cases h; exact main _ (by rw [List.length_set]) rfl)
        | cases h
    · exact absurd h (by simp)
    · split at h
      · cases h
      · cases h
        exact main _ (length_foldl_set _ _ _) rfl
    · split at h
      · cases h
      · split at h
        · cases h
          exact main _ (by unfold writeIdxs; exact length_writeIdxs _ _) rfl
        · cases h

theorem delCol_eqLens (cols : Columns α) (name : String) (u : Columns α)
    (hE : EqLens cols) (h : delCol cols name = Except.ok u) : EqLens u := by
  unfold delCol at h
  split at h
  · cases h
    apply eqLens_of_const _ (tblLen cols)
    intro p hp
    exact hE p (List.mem_of_mem_filter hp)
  · cases h

theorem reach_eqLens (t : Columns α) (h : Reach t) : EqLens t := by
  induction h with
  | emptyTable => intro p hp; cases hp
  | construct data t hmk => exact mkTable_eqLens data t hmk
  | assign t t' name v _ hset ih =>
    exact eqLens_of_const t' v.length (setCol_lens t name v t' hset)
  | assignSlice t t' name sel val _ hset ih =>
    exact setSlice_eqLens t name sel val t' ih hset
  | remove t t' name _ hdel ih => exact delCol_eqLens t name t' ih hdel

/-- C2: in every reachable table (empty or from a construction source, after
any succession of name-keyed assignments, slice assignments and deletions) all
columns have one shared length, and `shape` is `(0, 0)` for a column-less
table and `(length of any column, number of columns)` otherwise. -/
theorem reach_shape (t : Columns α) (h : Reach t) :
    (∀ p ∈ t, ∀ q ∈ t, p.2.length = q.2.length) ∧
    (t = [] → tblShape t = (0, 0)) ∧
    (∀ p ∈ t, tblShape t = (p.2.length, t.length)) := by
  have hE := reach_eqLens t h
  refine ⟨?_, ?_, ?_⟩
  · intro p hp q hq
    rw [hE p hp, hE q hq]
  · intro ht
    subst ht
    rfl
  · intro p hp
    unfold tblShape
    rw [hE p hp]

/-- Witness for C2 on a concrete constructed table. -/
theorem reach_shape_witness :
    (∀ p ∈ ([("a", [1, 2]), ("b", [3, 4])] : Columns Int),
      ∀ q ∈ ([("a", [1, 2]), ("b", [3, 4])] : Columns Int),
        p.2.length = q.2.length) ∧
    (([("a", [1, 2]), ("b", [3, 4])] : Columns Int) = [] →
      tblShape [("a", [1, 2]), ("b", [3, 4])] = (0, 0)) ∧
    (∀ p ∈ ([("a", [1, 2]), ("b", [3, 4])] : Columns Int),
      tblShape [("a", [1, 2]), ("b", [3, 4])] = (p.2.length, 2)) :=
  reach_shape [("a", [1, 2]), ("b", [3, 4])]
    (Reach.construct [("a", [1, 2]), ("b", [3, 4])] _ (by decide))

/-! ## Slice resolution facts -/

theorem resolveSlc_mk1 (a b : Int) (L : Nat) :
    resolveSlc (Slc.mk1 a b) L =
      (List.range (sliceCnt (adjIx a L 0 L) (adjIx b L 0 L) 1)).map
        (fun k : Nat => adjIx a L 0 L + (k : Int)) := by
  show resolveSlc ⟨some a, some b, Option.none⟩ L = _
  unfold resolveSlc
  norm_num

theorem sliceCnt_one (start stop : Int) :
    sliceCnt start stop 1 = (stop - start).toNat := by
  unfold sliceCnt
  norm_num

theorem adjIx_full (v L : Int) (h0 : 0 ≤ v) (h1 : v ≤ L) : adjIx v L 0 L = v := by
  unfold adjIx
  rw [if_neg (by omega)]
  omega

theorem resolveSlc_single (i : Int) (L : Nat) (h0 : 0 ≤ i) (h1 : i < (L : Int)) :
    resolveSlc (Slc.mk1 i (i + 1)) L = [i] := by
  rw [resolveSlc_mk1, adjIx_full i L h0 (by omega), adjIx_full (i + 1) L (by omega) (by omega)]
  rw [sliceCnt_one]
  have : (i + 1 - i).toNat = 1 := by omega
  rw [this]
  simp [List.range_succ]

theorem resolveSlc_oor (i : Int) (L : Nat) (h : (L : Int) ≤ i) :
    resolveSlc (Slc.mk1 i (i + 1)) L = [] := by
  rw [resolveSlc_mk1, sliceCnt_one]
  have ha : adjIx i L 0 L = L := by unfold adjIx; rw [if_neg (by omega)]; omega
  have hb : adjIx (i + 1) L 0 L = L := by unfold adjIx; rw [if_neg (by omega)]; omega
  rw [ha, hb]
  simp

theorem resolveSlc_neg_one (L : Nat) :
    resolveSlc (Slc.mk1 (-1) 0) L = [] := by
  rw [resolveSlc_mk1, sliceCnt_one]
  have ha : adjIx (-1) L 0 L = max ((L : Int) - 1) 0 := by
    unfold adjIx; rw [if_pos (by omega)]; omega
  have hb : adjIx 0 L 0 L = 0 := by unfold adjIx; rw [if_neg (by omega)]; omega
  rw [ha, hb]
  have : ((0 : Int) - max ((L : Int) - 1) 0).toNat = 0 := by omega
  rw [this]
  rfl

theorem sliceList_single [Inhabited α] (v : List α) (i : Int)
    (h0 : 0 ≤ i) (h1 : i < (v.length : Int)) :
    sliceList v (Slc.mk1 i (i + 1)) = [v.getD i.toNat default] := by
  unfold sliceList
  rw [resolveSlc_single i v.length h0 h1]
  rfl

theorem length_sliceList [Inhabited α] (v : List α) (s : Slc) :
    (sliceList v s).length = (resolveSlc s v.length).length := by
  unfold sliceList
  rw [List.length_map]

/-! ## Sorted-unique and deduplication basics -/

theorem mem_insertSorted (x y : String) (l : List String) :
    y ∈ insertSorted x l ↔ y = x ∨ y ∈ l := by
  induction l with
  | nil => simp [insertSorted]
  | cons z l ih =>
    unfold insertSorted
    split
    · simp
    · simp only [List.mem_cons, ih]
      tauto

theorem mem_sortStrings (x : String) (l : List String) :
    x ∈ sortStrings l ↔ x ∈ l := by
  induction l with
  | nil => simp [sortStrings]
  | cons y l ih =>
    unfold sortStrings at ih ⊢
    rw [List.foldr_cons, mem_insertSorted, ih, List.mem_cons]

theorem mem_sortedUnique (x : String) (keys : List String) :
    x ∈ sortedUnique keys ↔ x ∈ keys := by
  unfold sortedUnique
  rw [mem_sortStrings, List.mem_dedup]

theorem dedupKeys_of_nodup (keys : List String) (h : keys.Nodup) :
    dedupKeys keys = keys := by
  unfold dedupKeys
  have hdups : (sortedUnique keys).filter (fun k => 1 < keys.count k) = [] := by
    rw [List.filter_eq_nil_iff]
    intro x hx
    have hmem : x ∈ keys := (mem_sortedUnique x keys).mp hx
    have := List.nodup_iff_count_le_one.mp h x
    simp only [decide_eq_true_eq]
    omega
  rw [hdups]
  rfl

/-! ## Construction on well-formed pair lists -/

theorem zip_map_fst_snd (l : List (String × List α)) :
    (l.map Prod.fst).zip (l.map Prod.snd) = l := by
  induction l with
  | nil => rfl
  | cons p l ih => simp [ih]

theorem foldlM_setCol_inv (data : List (String × List α)) :
    ∀ (acc t : Columns α), (keysOf acc ++ data.map Prod.fst).Nodup →
      data.foldlM (fun cols p => setCol cols p.1 p.2) acc = Except.ok t →
      t = acc ++ data := by
  induction data with
  | nil =>
    intro acc t _ h
    simp only [List.foldlM_nil] at h
    cases h
    simp
  | cons p data ih =>
    intro acc t hnd h
    rw [List.foldlM_cons] at h
    obtain ⟨mid, hmid, hrest⟩ := exceptBind_ok h
    obtain ⟨-, hmid2⟩ := (setCol_ok_iff acc p.1 p.2 mid).mp hmid
    have hfresh : p.1 ∉ keysOf acc := by
      intro hc
      have : ¬ (keysOf acc).Disjoint (p.1 :: data.map Prod.fst) := by
        intro hd
        exact (hd hc (List.mem_cons_self _ _))
      exact this (List.disjoint_of_nodup_append hnd)
    rw [odSet_fresh acc p.1 p.2 hfresh] at hmid2
    subst hmid2
    have hnd2 : (keysOf (acc ++ [p]) ++ data.map Prod.fst).Nodup := by
      rw [keysOf_append]
      show ((keysOf acc ++ [p.1]) ++ data.map Prod.fst).Nodup
      rw [List.append_assoc]
      simpa using hnd
    have := ih (acc ++ [p]) t hnd2 hrest
    rw [this, List.append_assoc]
    rfl

theorem mkTable_of_nodup (data : List (String × List α)) (t : Columns α)
    (hN : (data.map Prod.fst).Nodup)
    (h : mkTable data = Except.ok t) : t = data := by
  unfold mkTable at h
  rw [dedupKeys_of_nodup _ hN, zip_map_fst_snd] at h
  have := foldlM_setCol_inv data [] t (by simpa [keysOf]) h
  simpa using this

theorem foldlM_setCol_ok (data : List (String × List α)) (L : Nat) :
    ∀ acc : Columns α, (∀ p ∈ acc, p.2.length = L) → (∀ p ∈ data, p.2.length = L) →
      (keysOf acc ++ data.map Prod.fst).Nodup →
      data.foldlM (fun cols p => setCol cols p.1 p.2) acc = Except.ok (acc ++ data) := by
  induction data with
  | nil =>
    intro acc _ _ _
    rw [List.foldlM_nil, List.append_nil]
    rfl
  | cons p data ih =>
    intro acc hacc hdata hnd
    have hset : setCol acc p.1 p.2 = Except.ok (odSet acc p.1 p.2) := by
      rw [setCol_ok_iff]
      refine ⟨?_, rfl⟩
      intro q hq
      rw [hacc q hq, hdata p (List.mem_cons_self _ _)]
    have hfresh : p.1 ∉ keysOf acc := by
      intro hc
      exact (List.disjoint_of_nodup_append hnd) hc (List.mem_cons_self _ _)
    have hnd2 : (keysOf (acc ++ [p]) ++ data.map Prod.fst).Nodup := by
      rw [keysOf_append, List.append_assoc]
      simpa using hnd
    have hacc2 : ∀ q ∈ acc ++ [p], q.2.length = L := by
      intro q hq
      rcases List.mem_append.mp hq with h1 | h1
      · exact hacc q h1
      · simp only [List.mem_singleton] at h1
        subst h1
        exact hdata q (List.mem_cons_self _ _)
    have hdata2 : ∀ q ∈ data, q.2.length = L := fun q hq =>
      hdata q (List.mem_cons_of_mem _ hq)
    rw [List.foldlM_cons, hset, odSet_fresh acc p.1 p.2 hfresh]
    show data.foldlM (fun cols p => setCol cols p.1 p.2) (acc ++ [p]) = _
    rw [ih (acc ++ [p]) hacc2 hdata2 hnd2, List.append_assoc]
    rfl

theorem mkTable_nodup_ok (data : List (String × List α)) (L : Nat)
    (hN : (data.map Prod.fst).Nodup) (hlen : ∀ p ∈ data, p.2.length = L) :
    mkTable data = Except.ok data := by
  unfold mkTable
  rw [dedupKeys_of_nodup _ hN, zip_map_fst_snd]
  have := foldlM_setCol_ok data L [] (fun p hp => by cases hp) hlen (by simpa [keysOf])
  simpa using this

/-! ## Reading sub-tables -/

theorem lookupCol_self (cols : Columns α) (hN : NodupKeys cols)
    (p : String × List α) (hp : p ∈ cols) : lookupCol cols p.1 = some p.2 := by
  induction cols with
  | nil => cases hp
  | cons q rest ih =>
    have hN2 : q.1 ∉ keysOf rest ∧ (keysOf rest).Nodup := by
      have := hN
      unfold NodupKeys keysOf at this
      rw [List.map_cons, List.nodup_cons] at this
      exact this
    rcases List.mem_cons.mp hp with h1 | h1
    · subst h1
      unfold lookupCol
      rw [List.find?_cons_of_pos _ (by simp)]
      rfl
    · have hq : ¬ ((fun r : String × List α => r.1 == p.1) q) = true := by
        simp only [beq_iff_eq]
        intro he
        exact hN2.1 (he ▸ List.mem_map.mpr ⟨p, h1, rfl⟩)
      have hfind : List.find? (fun r : String × List α => r.1 == p.1) (q :: rest) =
          List.find? (fun r : String × List α => r.1 == p.1) rest :=
        List.find?_cons_of_neg _ hq
      unfold lookupCol
      rw [hfind]
      exact ih hN2.2 h1

theorem mapM_colEntryGet [Inhabited α] (cols : Columns α) (s : Slc)
    (hs : s.step? ≠ some 0) (sub : Columns α)
    (hsub : ∀ p ∈ sub, lookupCol cols p.1 = some p.2) :
    ((keysOf sub).map Ix.str).mapM (colEntryGet cols (Ix.slc s)) =
      Except.ok (sub.map (fun p => (p.1, sliceList p.2 s))) := by
  induction sub with
  | nil => rfl
  | cons p rest ih =>
    have hp := hsub p (List.mem_cons_self _ _)
    have hc : colEntryGet cols (Ix.slc s) (Ix.str p.1) =
        Except.ok (p.1, sliceList p.2 s) := by
      show (match lookupCol cols p.1 with
        | Option.none => Except.error (TErr.keyError p.1)
        | some v => (applySel v (Ix.slc s)).map (fun w => (p.1, w))) = _
      rw [hp]
      show Except.map (fun w => ((p.1 : String), w))
          (if s.step? = some 0 then Except.error TErr.otherErr
           else Except.ok (sliceList p.2 s)) = _
      rw [if_neg hs]
      rfl
    unfold keysOf
    rw [List.map_cons, List.map_cons, List.mapM_cons, hc]
    have := ih (fun q hq => hsub q (List.mem_cons_of_mem _ hq))
    unfold keysOf at this
    rw [this]
    rfl

theorem keysOf_map_pair {β : Type} (cols : Columns α) (g : String × List α → List β) :
    (cols.map (fun p => (p.1, g p))).map Prod.fst = keysOf cols := by
  rw [List.map_map]
  rfl

theorem getItem_int_eq [Inhabited α] (cols : Columns α) (hN : NodupKeys cols)
    (hE : EqLens cols) (i : Int) :
    getItem cols (Ix.int i) = Except.ok (GetRes.tbl
      (cols.map (fun p => (p.1, sliceList p.2 (Slc.mk1 i (i + 1)))))) := by
  show buildSub cols ((keysOf cols).map Ix.str) (Ix.slc (Slc.mk1 i (i + 1))) = _
  unfold buildSub
  rw [mapM_colEntryGet cols _ (by simp [Slc.mk1]) cols
    (fun p hp => lookupCol_self cols hN p hp)]
  show (mkTable (cols.map fun p => (p.1, sliceList p.2 (Slc.mk1 i (i + 1))))).map
    GetRes.tbl = _
  rw [mkTable_nodup_ok _ (resolveSlc (Slc.mk1 i (i + 1)) (tblLen cols)).length
    (by rw [keysOf_map_pair]; exact hN)
    (by
      intro p hp
      rcases List.mem_map.mp hp with ⟨q, hq, rfl⟩
      show (sliceList q.2 (Slc.mk1 i (i + 1))).length = _
      rw [length_sliceList, hE q hq])]
  rfl

/-! ## C5: a single integer index selects the row slice [i, i+1) -/

/-- C5: for every integer `i`, `table[i]` is a new Table holding all columns
restricted to the row slice `[i, i+1)` (in original column order); when `i` is
an in-range row position the result has exactly one row and all the columns of
the source table. -/
theorem int_index_row_slice [Inhabited α] (cols : Columns α) (hN : NodupKeys cols)
    (hE : EqLens cols) :
    (∀ i : Int, getItem cols (Ix.int i) = Except.ok (GetRes.tbl
      (cols.map (fun p => (p.1, sliceList p.2 (Slc.mk1 i (i + 1))))))) ∧
    (∀ i : Int, 0 ≤ i → i < (tblLen cols : Int) →
      tblShape (cols.map (fun p => (p.1, sliceList p.2 (Slc.mk1 i (i + 1))))) =
        (1, cols.length)) := by
  constructor
  · intro i
    exact getItem_int_eq cols hN hE i
  · intro i h0 h1
    match cols with
    | [] =>
      have hz : tblLen ([] : Columns α) = 0 := rfl
      rw [hz] at h1
      omega
    | p :: rest =>
      have hp : p.2.length = tblLen (p :: rest) := hE p (List.mem_cons_self _ _)
      unfold tblShape
      rw [List.length_map]
      have hhead : tblLen ((p :: rest).map
          (fun p => (p.1, sliceList p.2 (Slc.mk1 i (i + 1))))) =
          (sliceList p.2 (Slc.mk1 i (i + 1))).length := rfl
      rw [hhead, length_sliceList, hp, resolveSlc_single i _ h0 h1]
      rfl

/-- Witness for C5: a 3-column, 5-row table indexed at row 0 gives a 1-row,
3-column table. -/
theorem int_index_row_slice_witness :
    getItem ([("a", [1, 2, 3, 4, 5]), ("b", [6, 7, 8, 9, 10]),
        ("c", [11, 12, 13, 14, 15])] : Columns Int) (Ix.int 0) =
      Except.ok (GetRes.tbl [("a", [1]), ("b", [6]), ("c", [11])]) ∧
    tblShape ([("a", [1]), ("b", [6]), ("c", [11])] : Columns Int) = (1, 3) :=
  ⟨((int_index_row_slice _ (by unfold NodupKeys; decide)
      (by unfold EqLens; decide)).1 0).trans (by decide), by decide⟩

/-! ## C10: out-of-range integer indices -/

/-- C10: on a table with at least one column, an out-of-range single-integer
read never raises: `table[i]` for `i ≥ rows` returns a Table that keeps every
column but holds zero rows, and `table[-1]` does the same (`slice(-1, 0)` is
empty); indeed `table[i]` succeeds for every integer `i`. -/
theorem int_index_out_of_range [Inhabited α] (cols : Columns α) (hN : NodupKeys cols)
    (hE : EqLens cols) (hne : cols ≠ []) :
    (∀ i : Int, (tblLen cols : Int) ≤ i →
      getItem cols (Ix.int i) =
        Except.ok (GetRes.tbl (cols.map (fun p => (p.1, ([] : List α)))))) ∧
    (getItem cols (Ix.int (-1)) =
      Except.ok (GetRes.tbl (cols.map (fun p => (p.1, ([] : List α)))))) ∧
    tblShape (cols.map (fun p => (p.1, ([] : List α)))) = (0, cols.length) ∧
    (∀ i : Int, ∃ u, getItem cols (Ix.int i) = Except.ok (GetRes.tbl u)) := by
  refine ⟨?_, ?_, ?_, ?_⟩
  · intro i hi
    rw [getItem_int_eq cols hN hE i]
    congr 2
    apply List.map_congr_left
    intro p hp
    have : sliceList p.2 (Slc.mk1 i (i + 1)) = [] := by
      unfold sliceList
      rw [hE p hp, resolveSlc_oor i _ hi]
      rfl
    rw [this]
  · rw [getItem_int_eq cols hN hE (-1)]
    congr 2
    apply List.map_congr_left
    intro p hp
    have : sliceList p.2 (Slc.mk1 (-1) (-1 + 1)) = [] := by
      unfold sliceList
      have : (-1 : Int) + 1 = 0 := by omega
      rw [this, resolveSlc_neg_one]
      rfl
    rw [this]
  · match cols, hne with
    | p :: rest, _ =>
      unfold tblShape
      rw [List.length_map]
      rfl
  · intro i
    exact ⟨_, getItem_int_eq cols hN hE i⟩

/-- Witness for C10 on a 1-column, 3-row table at indices 5 and -1. -/
theorem int_index_out_of_range_witness :
    getItem ([("a", [1, 2, 3])] : Columns Int) (Ix.int 5) =
      Except.ok (GetRes.tbl [("a", [])]) ∧
    getItem ([("a", [1, 2, 3])] : Columns Int) (Ix.int (-1)) =
      Except.ok (GetRes.tbl [("a", [])]) ∧
    tblShape ([("a", ([] : List Int))] : Columns Int) = (0, 1) :=
  ⟨((int_index_out_of_range ([("a", [1, 2, 3])] : Columns Int)
      (by unfold NodupKeys; decide) (by unfold EqLens; decide) (by decide)).1 5
      (by decide)).trans (by decide),
   ((int_index_out_of_range ([("a", [1, 2, 3])] : Columns Int)
      (by unfold NodupKeys; decide) (by unfold EqLens; decide) (by decide)).2.1).trans
      (by decide),
   by decide⟩

/-! ## C6: a (name, integer position) read -/

/-- C6: for a table holding a column `name` and an in-range row position `p`,
`table[name, p]` returns the one-element slice of that column at `p` (the
source turns the position into `slice(p, p+1)` and applies it to the column). -/
theorem name_position_read [Inhabited α] (cols : Columns α) (name : String)
    (v : List α) (p : Int) (hv : lookupCol cols name = some v)
    (h0 : 0 ≤ p) (h1 : p < (v.length : Int)) :
    getItem cols (Ix.tup (Ix.str name) (Ix.int p)) =
      Except.ok (GetRes.col [v.getD p.toNat default]) := by
  show (match lookupCol cols name with
    | Option.none => Except.error (TErr.keyError name)
    | some w => (applySel w (Ix.slc (Slc.mk1 p (p + 1)))).map GetRes.col) = _
  rw [hv]
  show Except.map GetRes.col
      (if (Slc.mk1 p (p + 1)).step? = some 0 then Except.error TErr.otherErr
       else Except.ok (sliceList v (Slc.mk1 p (p + 1)))) = _
  rw [if_neg (by simp [Slc.mk1])]
  rw [sliceList_single v p h0 h1]
  rfl

/-- Witness for C6: `table["a", 2]` on a 3-row column is its one-element slice
at row 2. -/
theorem name_position_read_witness :
    getItem ([("a", [10, 20, 30])] : Columns Int) (Ix.tup (Ix.str "a") (Ix.int 2)) =
      Except.ok (GetRes.col [30]) :=
  (name_position_read [("a", [10, 20, 30])] "a" [10, 20, 30] 2
    (by decide) (by decide) (by decide)).trans (by decide)

/-! ## C4: column-name order of sub-tables -/

theorem colEntryGet_str_ok [Inhabited α] (cols : Columns α) (rs : Ix) (n : String)
    (q : String × List α) (h : colEntryGet cols rs (Ix.str n) = Except.ok q) :
    q.1 = n := by
  have h2 : (match lookupCol cols n with
    | Option.none => Except.error (TErr.keyError n)
    | some v => (applySel v rs).map (fun w => (n, w))) = Except.ok q := h
  rcases hl : lookupCol cols n with _ | v
  · rw [hl] at h2
    cases h2
  · rw [hl] at h2
    have h3 : (applySel v rs).map (fun w => ((n : String), w)) = Except.ok q := h2
    rcases ha : applySel v rs with e | w
    · rw [ha] at h3
      cases h3
    · rw [ha] at h3
      have h4 : (Except.ok ((n : String), w) : Except TErr (String × List α)) =
          Except.ok q := h3
      cases h4
      rfl

theorem mapM_colEntryGet_keys [Inhabited α] (cols : Columns α) (rs : Ix)
    (ns : List String) :
    ∀ pairs : Columns α,
      (ns.map Ix.str).mapM (colEntryGet cols rs) = Except.ok pairs →
      pairs.map Prod.fst = ns := by
  induction ns with
  | nil =>
    intro pairs h
    cases h
    rfl
  | cons n ns ih =>
    intro pairs h
    rw [List.map_cons, List.mapM_cons] at h
    obtain ⟨q, hq, h2⟩ := exceptBind_ok h
    obtain ⟨rest, hrest, h3⟩ := exceptBind_ok h2
    have : pairs = q :: rest := by
      cases h3
      rfl
    subst this
    rw [List.map_cons, colEntryGet_str_ok cols rs n q hq, ih rest hrest]

theorem buildSub_keys [Inhabited α] (cols : Columns α) (ns : List String) (rs : Ix)
    (u : Columns α) (hN : ns.Nodup)
    (h : buildSub cols (ns.map Ix.str) rs = Except.ok (GetRes.tbl u)) :
    keysOf u = ns := by
  unfold buildSub at h
  rcases hm : (ns.map Ix.str).mapM (colEntryGet cols rs) with e | pairs
  · rw [hm] at h
    cases h
  · rw [hm] at h
    have hk := mapM_colEntryGet_keys cols rs ns pairs hm
    have h2 : (mkTable pairs).map GetRes.tbl = Except.ok (GetRes.tbl u) := h
    rcases ht : mkTable pairs with e | t
    · rw [ht] at h2
      cases h2
    · rw [ht] at h2
      have h3 : (Except.ok (GetRes.tbl t) : Except TErr (GetRes α)) =
          Except.ok (GetRes.tbl u) := h2
      cases h3
      have := mkTable_of_nodup pairs u (by rw [hk]; exact hN) ht
      subst this
      rw [keysOf, hk]

/-- C4 (amended with pairwise-distinct requested names): every sub-table read
that selects all columns — single integer, slice, or bare row-position list —
keeps exactly the original column names in original order, and every sub-table
read with an explicit list of (distinct) column names carries exactly the
requested names in the caller's order. -/
theorem subtable_key_order [Inhabited α] (cols : Columns α) (hN : NodupKeys cols) :
    (∀ (i : Int) (u : Columns α),
      getItem cols (Ix.int i) = Except.ok (GetRes.tbl u) → keysOf u = keysOf cols) ∧
    (∀ (s : Slc) (u : Columns α),
      getItem cols (Ix.slc s) = Except.ok (GetRes.tbl u) → keysOf u = keysOf cols) ∧
    (∀ (l : List Int) (u : Columns α),
      getItem cols (Ix.ints l) = Except.ok (GetRes.tbl u) → keysOf u = keysOf cols) ∧
    (∀ (ns : List String) (u : Columns α), ns.Nodup →
      getItem cols (Ix.strs ns) = Except.ok (GetRes.tbl u) → keysOf u = ns) ∧
    (∀ (s : Slc) (ns : List String) (u : Columns α), ns.Nodup →
      getItem cols (Ix.tup (Ix.slc s) (Ix.strs ns)) = Except.ok (GetRes.tbl u) →
      keysOf u = ns) := by
  refine ⟨?_, ?_, ?_, ?_, ?_⟩
  · intro i u h
    exact buildSub_keys cols (keysOf cols) _ u hN h
  · intro s u h
    exact buildSub_keys cols (keysOf cols) _ u hN h
  · intro l u h
    exact buildSub_keys cols (keysOf cols) _ u hN h
  · intro ns u hns h
    exact buildSub_keys cols ns _ u hns h
  · intro s ns u hns h
    exact buildSub_keys cols ns _ u hns h

/-- Witness for C4: a row slice keeps the keys, and an explicit ["b","a"]
request reproduces that order. -/
theorem subtable_key_order_witness :
    keysOf ([("a", [3, 4, 5]), ("b", [8, 9, 10])] : Columns Int) =
      keysOf ([("a", [1, 2, 3, 4, 5]), ("b", [6, 7, 8, 9, 10])] : Columns Int) ∧
    keysOf ([("b", [6]), ("a", [1])] : Columns Int) = ["b", "a"] :=
  ⟨(subtable_key_order ([("a", [1, 2, 3, 4, 5]), ("b", [6, 7, 8, 9, 10])] :
      Columns Int) (by unfold NodupKeys; decide)).2.1 (Slc.mk1 2 5) _ (by decide),
   (subtable_key_order ([("a", [1]), ("b", [6])] : Columns Int)
      (by unfold NodupKeys; decide)).2.2.2.2 fullSlc ["b", "a"] _ (by decide)
      (by decide)⟩

/-- Counterexample to C4 as stated: a duplicated explicit column request
["a","a"] succeeds but the resulting keys are ["a","a-1"] (the sub-table runs
through the constructor, which renames duplicates), not the requested list. -/
theorem subtable_key_order_counterexample :
    getItem ([("a", [1]), ("b", [2])] : Columns Int)
        (Ix.tup (Ix.slc fullSlc) (Ix.strs ["a", "a"])) =
      Except.ok (GetRes.tbl [("a", [1]), ("a-1", [1])]) ∧
    keysOf ([("a", [1]), ("a-1", [1])] : Columns Int) ≠ ["a", "a"] :=
  ⟨by decide, by decide⟩

/-! ## C7: unrecognized read-index shapes -/

/-- C7 settles as a divergence between spec and code: the spec promises an
unsupported-index error, but `__getitem__` has no such raise; when the
row-selector slot resolves to Python `None` the final guard fails and the
method implicitly returns `None`.  Concretely, `table[None, "a"]` matches no
dispatch rule and silently evaluates to `None`. -/
theorem unsupported_index_returns_none :
    getItem ([("a", [1])] : Columns Int) (Ix.tup Ix.none (Ix.str "a")) =
      Except.ok GetRes.pyNone := by
  decide

/-! ## Resolved slice positions are always in range -/

theorem adjIx_bounds (v L lower upper : Int) (hwu : L - 1 ≤ upper)
    (hlu : lower ≤ upper) (hl0 : lower ≤ 0) :
    lower ≤ adjIx v L lower upper ∧ adjIx v L lower upper ≤ upper := by
  unfold adjIx
  split
  · next hv => exact ⟨le_max_right _ _, max_le (by omega) hlu⟩
  · next hv => exact ⟨le_min (by omega) hlu, min_le_right _ _⟩

theorem sliceEnum_mem_pos (start stop step L : Int) (hstep : 0 < step)
    (hstart : 0 ≤ start) (hstop : stop ≤ L) (i : Int)
    (h : i ∈ (List.range (sliceCnt start stop step)).map
      (fun k : Nat => start + step * (k : Int))) :
    0 ≤ i ∧ i < L := by
  rcases List.mem_map.mp h with ⟨k, hk, rfl⟩
  have hkc : k < sliceCnt start stop step := List.mem_range.mp hk
  unfold sliceCnt at hkc
  rw [if_pos hstep] at hkc
  have hkd : ((k : Int) + 1) ≤ (stop - start + step - 1) / step := by
    have := Int.lt_toNat.mp hkc
    omega
  have h2 := (Int.le_ediv_iff_mul_le hstep).mp hkd
  rw [add_mul, one_mul] at h2
  have hmc : (k : Int) * step = step * (k : Int) := mul_comm _ _
  have hk0 : 0 ≤ step * (k : Int) :=
    mul_nonneg (le_of_lt hstep) (Int.natCast_nonneg k)
  constructor
  · omega
  · omega

theorem sliceEnum_mem_neg (start stop step L : Int) (hstep : step < 0)
    (hstart : start ≤ L - 1) (hstop : -1 ≤ stop) (i : Int)
    (h : i ∈ (List.range (sliceCnt start stop step)).map
      (fun k : Nat => start + step * (k : Int))) :
    0 ≤ i ∧ i < L := by
  rcases List.mem_map.mp h with ⟨k, hk, rfl⟩
  have hkc : k < sliceCnt start stop step := List.mem_range.mp hk
  unfold sliceCnt at hkc
  rw [if_neg (by omega)] at hkc
  have hkd : ((k : Int) + 1) ≤ (start - stop - step - 1) / (-step) := by
    have := Int.lt_toNat.mp hkc
    omega
  have h2 := (Int.le_ediv_iff_mul_le (by omega : (0 : Int) < -step)).mp hkd
  rw [add_mul, one_mul] at h2
  have hmc : (k : Int) * (-step) = -(step * (k : Int)) := by ring
  have hk0 : 0 ≤ (k : Int) * (-step) :=
    mul_nonneg (Int.natCast_nonneg k) (by omega)
  constructor
  · omega
  · omega

theorem resolveSlc_mem (s : Slc) (n : Nat) (i : Int) (h : i ∈ resolveSlc s n) :
    0 ≤ i ∧ i < (n : Int) := by
  simp only [resolveSlc] at h
  by_cases hz : s.step?.getD 1 = 0
  · rw [if_pos hz] at h
    cases h
  · rw [if_neg hz] at h
    rcases lt_or_gt_of_ne hz with hneg | hpos
    · rw [if_pos hneg, if_pos hneg, if_pos hneg, if_pos hneg] at h
      apply sliceEnum_mem_neg _ _ _ (n : Int) hneg _ _ i h
      · rcases s.start? with _ | v
        · show (n : Int) - 1 ≤ (n : Int) - 1
          omega
        · show adjIx v n (-1) ((n : Int) - 1) ≤ (n : Int) - 1
          exact (adjIx_bounds v n (-1) ((n : Int) - 1) (by omega) (by omega)
            (by omega)).2
      · rcases s.stop? with _ | v
        · show (-1 : Int) ≤ -1
          omega
        · show (-1 : Int) ≤ adjIx v n (-1) ((n : Int) - 1)
          exact (adjIx_bounds v n (-1) ((n : Int) - 1) (by omega) (by omega)
            (by omega)).1
    · rw [if_neg (by omega), if_neg (by omega), if_neg (by omega),
        if_neg (by omega)] at h
      apply sliceEnum_mem_pos _ _ _ (n : Int) hpos _ _ i h
      · rcases s.start? with _ | v
        · show (0 : Int) ≤ 0
          omega
        · show (0 : Int) ≤ adjIx v n 0 (n : Int)
          exact (adjIx_bounds v n 0 (n : Int) (by omega) (by omega) (by omega)).1
      · rcases s.stop? with _ | v
        · show (n : Int) ≤ n
          omega
        · show adjIx v n 0 (n : Int) ≤ (n : Int)
          exact (adjIx_bounds v n 0 (n : Int) (by omega) (by omega) (by omega)).2

/-! ## C8: sub-tables alias the parent's storage -/

theorem readView_viewSlice [Inhabited α] (st : Store α) (v : View) (s : Slc) :
    readView st (viewSlice v s) = sliceList (readView st v) s := by
  unfold readView viewSlice sliceList
  simp only [List.length_map, List.map_map]
  apply List.map_congr_left
  intro i hi
  have hmem := resolveSlc_mem s v.idxs.length i hi
  have hlt : i.toNat < v.idxs.length := by omega
  simp only [Function.comp_apply]
  have h1 : v.idxs.getD i.toNat 0 = v.idxs[i.toNat] := by
    rw [List.getD_eq_getElem?_getD, List.getElem?_eq_getElem hlt]
    rfl
  have h2 : (v.idxs.map (fun j => (st.getD v.base []).getD j default)).getD
      i.toNat default = (st.getD v.base []).getD (v.idxs[i.toNat]) default := by
    rw [List.getD_eq_getElem?_getD,
      List.getElem?_eq_getElem (by rw [List.length_map]; exact hlt),
      List.getElem_map]
    rfl
  rw [h1, h2]

/-- C8 (amended): a sub-Table produced by an integer- or slice-based row read
shares the parent's storage instead of copying it: each of its columns is a
view onto the same base buffer as the parent's column (numpy basic slicing
returns views and `numpy.ma.array` wraps without copying), so under any store
— in particular one mutated through the parent after the read — the
sub-Table's contents are the slice of the parent's CURRENT contents, and
parent mutations inside the selected rows are visible in the sub-Table (and
vice versa). -/
theorem subtable_aliases_parent [Inhabited α] (t : TableS) (s : Slc)
    (name : String) (v : View) (hv : (name, v) ∈ t) :
    (name, viewSlice v s) ∈ subTableRows t s ∧
    (viewSlice v s).base = v.base ∧
    (∀ st : Store α, readView st (viewSlice v s) = sliceList (readView st v) s) := by
  refine ⟨?_, rfl, fun st => readView_viewSlice st v s⟩
  unfold subTableRows
  exact List.mem_map.mpr ⟨(name, v), hv, rfl⟩

/-- Witness for the amended C8 on a concrete table and store. -/
theorem subtable_aliases_parent_witness :
    ("a", viewSlice ⟨0, [0, 1, 2]⟩ (Slc.mk1 0 2)) ∈
      subTableRows [("a", ⟨0, [0, 1, 2]⟩)] (Slc.mk1 0 2) ∧
    (viewSlice ⟨0, [0, 1, 2]⟩ (Slc.mk1 0 2)).base = 0 ∧
    readView ([[99, 2, 3]] : Store Int) (viewSlice ⟨0, [0, 1, 2]⟩ (Slc.mk1 0 2)) =
      sliceList (readView ([[99, 2, 3]] : Store Int) ⟨0, [0, 1, 2]⟩) (Slc.mk1 0 2) :=
  ⟨(@subtable_aliases_parent Int _ [("a", ⟨0, [0, 1, 2]⟩)] (Slc.mk1 0 2) "a"
      ⟨0, [0, 1, 2]⟩ (by decide)).1,
   (@subtable_aliases_parent Int _ [("a", ⟨0, [0, 1, 2]⟩)] (Slc.mk1 0 2) "a"
      ⟨0, [0, 1, 2]⟩ (by decide)).2.1,
   (@subtable_aliases_parent Int _ [("a", ⟨0, [0, 1, 2]⟩)] (Slc.mk1 0 2) "a"
      ⟨0, [0, 1, 2]⟩ (by decide)).2.2 [[99, 2, 3]]⟩

/-- Counterexample to C8 as stated: take `t` holding column "a" = [1,2,3] in
buffer 0, read `u = t[0:2]`, then assign `t["a", 0] = 99` in place.  Reading
`u`'s column under the mutated store yields [99, 2] — the parent mutation IS
visible in the previously returned sub-Table, so it holds no independent
copy. -/
theorem subtable_copy_counterexample :
    subTableRows [("a", (⟨0, [0, 1, 2]⟩ : View))] (Slc.mk1 0 2) =
      [("a", ⟨0, [0, 1]⟩)] ∧
    writeElem ([[1, 2, 3]] : Store Int) [("a", ⟨0, [0, 1, 2]⟩)] "a" 0 99 =
      Except.ok [[99, 2, 3]] ∧
    readView ([[1, 2, 3]] : Store Int) (⟨0, [0, 1]⟩ : View) = [1, 2] ∧
    readView ([[99, 2, 3]] : Store Int) (⟨0, [0, 1]⟩ : View) = [99, 2] ∧
    ([99, 2] : List Int) ≠ [1, 2] := by
  refine ⟨by decide, by decide, by decide, by decide, by decide⟩

/-! ## C9: the optional per-column float conversion of read_csv -/

theorem optionBind_some {β γ : Type} {f : Option β} {g : β → Option γ} {c : γ}
    (h : (f >>= g) = some c) : ∃ b, f = some b ∧ g b = some c := by
  cases f with
  | none => simp [Bind.bind] at h
  | some b => exact ⟨b, rfl, by simpa [Bind.bind] using h⟩

theorem mapM_option_length {β γ : Type} (f : β → Option γ) (c : List β) :
    ∀ qs, c.mapM f = some qs → qs.length = c.length := by
  induction c with
  | nil =>
    intro qs h
    cases h
    rfl
  | cons b c ih =>
    intro qs h
    rw [List.mapM_cons] at h
    obtain ⟨q, hq, h2⟩ := optionBind_some h
    obtain ⟨rest, hrest, h3⟩ := optionBind_some h2
    have h4 : some (q :: rest) = some qs := h3
    cases h4
    rw [List.length_cons, List.length_cons, ih rest hrest]

theorem map_self_of_id {β : Type} (l : List β) (f : β → β)
    (h : ∀ a ∈ l, f a = a) : l.map f = l := by
  induction l with
  | nil => rfl
  | cons a l ih =>
    rw [List.map_cons, h a (List.mem_cons_self _ _),
      ih (fun b hb => h b (List.mem_cons_of_mem _ hb))]

theorem convertCol_length (c : List Cell) : (convertCol c).length = c.length := by
  unfold convertCol
  rcases hp : c.mapM parseCell with _ | qs
  · rfl
  · rw [List.length_map]
    exact mapM_option_length parseCell c qs hp

theorem odSet_nodupKeys (cols : Columns α) (name : String) (v : List α)
    (h : NodupKeys cols) : NodupKeys (odSet cols name v) := by
  by_cases hm : name ∈ keysOf cols
  · unfold NodupKeys
    rw [keysOf_odSet_mem cols name v hm]
    exact h
  · unfold NodupKeys
    rw [odSet_fresh cols name v hm, keysOf_append]
    rw [List.nodup_append]
    refine ⟨h, List.nodup_singleton _, ?_⟩
    intro x hx hx2
    simp only [keysOf, List.map_cons, List.map_nil, List.mem_singleton] at hx2
    subst hx2
    exact hm hx

theorem foldlM_setCol_nodup (l : List (String × List α)) :
    ∀ acc t : Columns α, NodupKeys acc →
      l.foldlM (fun cols p => setCol cols p.1 p.2) acc = Except.ok t →
      NodupKeys t := by
  induction l with
  | nil =>
    intro acc t hacc h
    rw [List.foldlM_nil] at h
    cases h
    exact hacc
  | cons p l ih =>
    intro acc t hacc h
    rw [List.foldlM_cons] at h
    obtain ⟨mid, hmid, hrest⟩ := exceptBind_ok h
    obtain ⟨-, hmid2⟩ := (setCol_ok_iff acc p.1 p.2 mid).mp hmid
    subst hmid2
    exact ih _ t (odSet_nodupKeys acc p.1 p.2 hacc) hrest

theorem mkTable_nodupKeys (data : List (String × List α)) (t : Columns α)
    (h : mkTable data = Except.ok t) : NodupKeys t := by
  unfold mkTable at h
  exact foldlM_setCol_nodup _ [] t (by unfold NodupKeys keysOf; simp) h

theorem lookupCol_mem_keys (cols : Columns α) (nm : String)
    (h : nm ∈ keysOf cols) :
    ∃ c, lookupCol cols nm = some c ∧ (nm, c) ∈ cols := by
  unfold lookupCol
  rcases hf : cols.find? (fun p => p.1 == nm) with _ | q
  · exfalso
    rcases List.mem_map.mp h with ⟨p, hp, rfl⟩
    have := List.find?_eq_none.mp hf p hp
    simp at this
  · have h1 := List.find?_some hf
    have h2 := List.mem_of_find?_eq_some hf
    have h3 : q.1 = nm := beq_iff_eq.mp h1
    rw [hf]
    refine ⟨q.2, rfl, ?_⟩
    rw [← h3]
    exact h2

theorem convertStep_eq (acc : Columns Cell) (nm : String) (L : Nat)
    (hN : NodupKeys acc) (hL : ∀ p ∈ acc, p.2.length = L)
    (hmem : nm ∈ keysOf acc) :
    convertStep acc nm =
      acc.map (fun p => if p.1 = nm then (p.1, convertCol p.2) else p) := by
  obtain ⟨c, hc, hcm⟩ := lookupCol_mem_keys acc nm hmem
  have hval : ∀ p ∈ acc, p.1 = nm → p.2 = c := by
    intro p hp he
    have := lookupCol_self acc hN p hp
    rw [he, hc] at this
    cases this
    rfl
  unfold convertStep
  rw [hc]
  show (match c.mapM parseCell with
    | some qs =>
      match setCol acc nm (qs.map Cell.num) with
      | Except.ok acc2 => acc2
      | Except.error _ => acc
    | Option.none => acc) = _
  rcases hp : c.mapM parseCell with _ | qs
  · -- conversion fails: the column is left exactly as it was
    show acc = _
    have hcc : convertCol c = c := by
      unfold convertCol
      rw [hp]
    have hid : ∀ p ∈ acc, (if p.1 = nm then ((p.1 : String), convertCol p.2)
        else p) = p := by
      intro p hpm
      split
      · next he =>
        rw [hval p hpm he, hcc, ← hval p hpm he]
      · rfl
    exact (map_self_of_id acc _ hid).symm
  · -- every cell parsed: the column is reassigned as numbers
    have hlen : (qs.map Cell.num).length = L := by
      rw [List.length_map, mapM_option_length parseCell c qs hp]
      exact hL (nm, c) hcm
    have hset : setCol acc nm (qs.map Cell.num) =
        Except.ok (odSet acc nm (qs.map Cell.num)) := by
      rw [setCol_ok_iff]
      exact ⟨fun q hq => by rw [hL q hq, hlen], rfl⟩
    show (match setCol acc nm (qs.map Cell.num) with
      | Except.ok acc2 => acc2
      | Except.error _ => acc) = _
    rw [hset]
    show odSet acc nm (qs.map Cell.num) = _
    unfold odSet
    rw [if_pos ((any_key_iff acc nm).mpr hmem)]
    apply List.map_congr_left
    intro p hpm
    by_cases he : p.1 = nm
    · rw [if_pos (by simp [he]), if_pos he, hval p hpm he, he]
      unfold convertCol
      rw [hp]
    · rw [if_neg (by simp [he]), if_neg he]

theorem convertFold_go (ks : List String) :
    ∀ (acc : Columns Cell) (L : Nat), NodupKeys acc →
      (∀ p ∈ acc, p.2.length = L) → ks.Nodup → (∀ nm ∈ ks, nm ∈ keysOf acc) →
      ks.foldl convertStep acc =
        acc.map (fun p => if p.1 ∈ ks then (p.1, convertCol p.2) else p) := by
  induction ks with
  | nil =>
    intro acc L _ _ _ _
    rw [List.foldl_nil]
    have hid : ∀ p ∈ acc, (if p.1 ∈ ([] : List String) then
        ((p.1 : String), convertCol p.2) else p) = p := by
      intro p _
      rw [if_neg (List.not_mem_nil _)]
    exact (map_self_of_id acc _ hid).symm
  | cons nm ks ih =>
    intro acc L hN hL hnd hsub
    rw [List.foldl_cons,
      convertStep_eq acc nm L hN hL (hsub nm (List.mem_cons_self _ _))]
    have hkeys2 : keysOf (acc.map
        (fun p => if p.1 = nm then (p.1, convertCol p.2) else p)) = keysOf acc := by
      unfold keysOf
      rw [List.map_map]
      apply List.map_congr_left
      intro p _
      simp only [Function.comp_apply]
      split
      · rfl
      · rfl
    have hN2 : NodupKeys (acc.map
        (fun p => if p.1 = nm then (p.1, convertCol p.2) else p)) := by
      unfold NodupKeys
      rw [hkeys2]
      exact hN
    have hL2 : ∀ p ∈ acc.map
        (fun p => if p.1 = nm then (p.1, convertCol p.2) else p),
        p.2.length = L := by
      intro p hpm
      rcases List.mem_map.mp hpm with ⟨q, hq, rfl⟩
      split
      · show (convertCol q.2).length = L
        rw [convertCol_length]
        exact hL q hq
      · exact hL q hq
    rw [ih _ L hN2 hL2 (List.nodup_cons.mp hnd).2
      (fun x hx => by rw [hkeys2]; exact hsub x (List.mem_cons_of_mem _ hx))]
    rw [List.map_map]
    apply List.map_congr_left
    intro p hpm
    have hnm_not : nm ∉ ks := (List.nodup_cons.mp hnd).1
    simp only [Function.comp_apply]
    by_cases he : p.1 = nm
    · rw [if_pos he]
      show (if p.1 ∈ ks then ((p.1 : String), convertCol (convertCol p.2))
        else ((p.1 : String), convertCol p.2)) = _
      rw [if_neg (by rw [he]; exact hnm_not),
        if_pos (List.mem_cons.mpr (Or.inl he))]
    · rw [if_neg he]
      by_cases hks : p.1 ∈ ks
      · rw [if_pos hks, if_pos (List.mem_cons.mpr (Or.inr hks))]
      · rw [if_neg hks, if_neg (by
          intro hc
          rcases List.mem_cons.mp hc with h1 | h1
          · exact he h1
          · exact hks h1)]

theorem convertFold_eq (t : Columns Cell) (hN : NodupKeys t) (hE : EqLens t) :
    convertFold t = t.map (fun p => (p.1, convertCol p.2)) := by
  unfold convertFold
  rw [convertFold_go (keysOf t) t (tblLen t) hN hE hN (fun nm h => h)]
  apply List.map_congr_left
  intro p hp
  have hmem : p.1 ∈ keysOf t := List.mem_map.mpr ⟨p, hp, rfl⟩
  rw [if_pos hmem]

theorem read_csv_eq (rows : List (List String)) (convert : Bool) :
    read_csv rows convert = (mkTable (csvPairs rows)).map
      (fun t => if convert then convertFold t else t) := by
  unfold read_csv
  rcases mkTable (csvPairs rows) with e | t
  · rfl
  · rfl

theorem read_csv_false_inv (rows : List (List String)) (t : Columns Cell)
    (h : read_csv rows false = Except.ok t) :
    mkTable (csvPairs rows) = Except.ok t := by
  rw [read_csv_eq] at h
  rcases hm : mkTable (csvPairs rows) with e | t2
  · rw [hm] at h
    exact absurd (show (Except.error e : Except TErr (Columns Cell)) =
      Except.ok t from h) (by simp)
  · rw [hm] at h
    have h2 : (Except.ok t2 : Except TErr (Columns Cell)) = Except.ok t := h
    cases h2
    rfl

/-- C9: loading with conversion enabled never fails when the plain load
succeeds, and converts each column independently: a column whose every cell
parses as a float becomes numeric, and a column with any unparseable cell is
left exactly as loaded (`convertCol` is the per-column all-or-nothing
conversion). -/
theorem read_csv_convert_columnwise (rows : List (List String)) (t : Columns Cell)
    (h : read_csv rows false = Except.ok t) :
    read_csv rows true = Except.ok (t.map (fun p => (p.1, convertCol p.2))) := by
  have hm := read_csv_false_inv rows t h
  rw [read_csv_eq, hm]
  show Except.ok (if true then convertFold t else t) = _
  rw [if_pos rfl,
    convertFold_eq t (mkTable_nodupKeys _ t hm) (mkTable_eqLens _ t hm)]

/-- Witness for C9: loading "a,b\n1,2\n3,4\n" with conversion enabled yields
numeric columns a = [1.0, 3.0] and b = [2.0, 4.0]. -/
theorem read_csv_convert_columnwise_witness :
    read_csv [["a", "b"], ["1", "2"], ["3", "4"]] true =
      Except.ok [("a", [Cell.num 1, Cell.num 3]), ("b", [Cell.num 2, Cell.num 4])] :=
  (read_csv_convert_columnwise [["a", "b"], ["1", "2"], ["3", "4"]]
    [("a", [Cell.txt "1", Cell.txt "3"]), ("b", [Cell.txt "2", Cell.txt "4"])]
    (by decide)).trans (by decide)

/-! ## C1 groundwork: decimal representations and renamed names -/

theorem decDigits_eq_toDigitsCore (f : Nat) :
    ∀ n acc, n < f → Nat.toDigitsCore 10 f n acc = decDigits n ++ acc := by
  induction f with
  | zero =>
    intro n acc h
    omega
  | succ f ih =>
    intro n acc h
    show (if n / 10 = 0 then Nat.digitChar (n % 10) :: acc
      else Nat.toDigitsCore 10 f (n / 10) (Nat.digitChar (n % 10) :: acc)) = _
    by_cases h10 : n < 10
    · have hdec : decDigits n = [Nat.digitChar n] := by
        rw [decDigits, dif_pos h10]
      have hdiv : n / 10 = 0 := Nat.div_eq_of_lt h10
      rw [if_pos hdiv, hdec, Nat.mod_eq_of_lt h10]
      rfl
    · have hdec : decDigits n = decDigits (n / 10) ++ [Nat.digitChar (n % 10)] := by
        rw [decDigits, dif_neg h10]
      have hdiv : n / 10 ≠ 0 := by
        intro hc
        rw [Nat.div_eq_zero_iff (by omega)] at hc
        exact h10 hc
      have hn0 : 0 < n := by omega
      have hstep : n / 10 < n := Nat.div_lt_self hn0 (by omega)
      rw [if_neg hdiv, ih (n / 10) _ (by omega), hdec, List.append_assoc]
      rfl

theorem repr_data_eq (n : Nat) : (Nat.repr n).data = decDigits n := by
  show Nat.toDigitsCore 10 (n + 1) n [] = _
  rw [decDigits_eq_toDigitsCore (n + 1) n [] (by omega), List.append_nil]

theorem digitChar_val (d : Nat) (h : d < 10) : (Nat.digitChar d).toNat = 48 + d := by
  interval_cases d <;> rfl

theorem digitsToNat_decDigits (n : Nat) : digitsToNat (decDigits n) = n := by
  induction n using Nat.strong_induction_on with
  | _ n ih =>
    by_cases h : n < 10
    · have hdec : decDigits n = [Nat.digitChar n] := by
        rw [decDigits, dif_pos h]
      rw [hdec]
      show 10 * 0 + ((Nat.digitChar n).toNat - 48) = n
      rw [digitChar_val n h]
      omega
    · have hdec : decDigits n = decDigits (n / 10) ++ [Nat.digitChar (n % 10)] := by
        rw [decDigits, dif_neg h]
      rw [hdec]
      unfold digitsToNat
      rw [List.foldl_append]
      show 10 * digitsToNat (decDigits (n / 10)) +
        ((Nat.digitChar (n % 10)).toNat - 48) = n
      rw [ih (n / 10) (Nat.div_lt_self (by omega) (by omega)),
        digitChar_val _ (Nat.mod_lt n (by omega))]
      omega

theorem repr_injective (m n : Nat) (h : Nat.repr m = Nat.repr n) : m = n := by
  have hd : decDigits m = decDigits n := by
    rw [← repr_data_eq, ← repr_data_eq, h]
  calc m = digitsToNat (decDigits m) := (digitsToNat_decDigits m).symm
    _ = digitsToNat (decDigits n) := by rw [hd]
    _ = n := digitsToNat_decDigits n

theorem renamed_data (b : String) (n : Nat) :
    (renamed b n).data = b.data ++ '-' :: (Nat.repr n).data := by
  show (b ++ "-" ++ toString n).data = _
  rw [String.data_append, String.data_append, List.append_assoc]
  rfl

theorem renamed_inj (b : String) {m n : Nat} (h : renamed b m = renamed b n) :
    m = n := by
  have hd : (renamed b m).data = (renamed b n).data := by rw [h]
  rw [renamed_data, renamed_data] at hd
  have h2 := List.append_cancel_left hd
  injection h2 with h2a h2b
  apply repr_injective
  cases hm : Nat.repr m with
  | mk dm =>
    cases hn : Nat.repr n with
    | mk dn =>
      rw [hm, hn] at h2b
      cases h2b
      rfl

theorem renamed_ne_base (b : String) (n : Nat) : renamed b n ≠ b := by
  intro h
  have hd : (renamed b n).data = b.data := by rw [h]
  rw [renamed_data] at hd
  have := congrArg List.length hd
  rw [List.length_append, List.length_cons] at this
  omega

theorem dashExtends_of_eq_renamed (b b2 : String) (n : Nat)
    (h : b2 = renamed b n) : (b.data ++ ['-']) <+: b2.data := by
  refine ⟨(Nat.repr n).data, ?_⟩
  rw [h, renamed_data, List.append_assoc]
  rfl

theorem takeApp {β : Type} (l1 l2 : List β) (n : Nat) :
    (l1 ++ l2).take (l1.length + n) = l1 ++ l2.take n := by
  induction l1 with
  | nil =>
    show List.take (0 + n) l2 = List.take n l2
    rw [Nat.zero_add]
  | cons a l1 ih =>
    have hlen : (a :: l1).length + n = (l1.length + n) + 1 := by
      rw [List.length_cons]
      omega
    rw [hlen]
    show a :: (l1 ++ l2).take (l1.length + n) = a :: (l1 ++ l2.take n)
    rw [ih]

theorem takeAppLe {β : Type} (l1 l2 : List β) (n : Nat) (h : n ≤ l1.length) :
    (l1 ++ l2).take n = l1.take n := by
  induction l1 generalizing n with
  | nil =>
    have : n = 0 := by simpa using h
    subst this
    rfl
  | cons a l1 ih =>
    match n with
    | 0 => rfl
    | Nat.succ m =>
      show a :: (l1 ++ l2).take m = a :: l1.take m
      rw [ih m (by simpa using h)]

theorem cross_renamed (b b2 : String) (hne : b ≠ b2) {m n : Nat}
    (h : renamed b m = renamed b2 n) :
    (b.data ++ ['-']) <+: b2.data ∨ (b2.data ++ ['-']) <+: b.data := by
  have hd : b.data ++ '-' :: (Nat.repr m).data =
      b2.data ++ '-' :: (Nat.repr n).data := by
    rw [← renamed_data, ← renamed_data, h]
  have hlen : b.data.length ≠ b2.data.length := by
    intro he
    apply hne
    have := (List.append_inj hd he).1
    cases hb : b with
    | mk db =>
      cases hb2 : b2 with
      | mk db2 =>
        rw [hb, hb2] at this
        cases this
        rfl
  rcases Nat.lt_or_ge b.data.length b2.data.length with hlt | hge
  · left
    have ht := congrArg (fun l => List.take (b.data.length + 1) l) hd
    simp only at ht
    rw [takeApp b.data ('-' :: (Nat.repr m).data) 1] at ht
    rw [takeAppLe b2.data ('-' :: (Nat.repr n).data) (b.data.length + 1)
      (by omega)] at ht
    show b.data ++ ['-'] <+: b2.data
    have : b.data ++ ['-'] = b2.data.take (b.data.length + 1) := by
      simpa using ht
    rw [this]
    exact List.take_prefix _ _
  · right
    have hgt : b2.data.length < b.data.length := by omega
    have ht := congrArg (fun l => List.take (b2.data.length + 1) l) hd.symm
    simp only at ht
    rw [takeApp b2.data ('-' :: (Nat.repr n).data) 1] at ht
    rw [takeAppLe b.data ('-' :: (Nat.repr m).data) (b2.data.length + 1)
      (by omega)] at ht
    have : b2.data ++ ['-'] = b.data.take (b2.data.length + 1) := by
      simpa using ht
    rw [this]
    exact List.take_prefix _ _

/-! ## findSuffix computes the least free suffix -/

theorem findSuffix_spec (R : List String) (b : String) :
    ∀ (fuel s : Nat), (∃ m, s ≤ m ∧ m < s + fuel ∧ renamed b m ∉ R) →
      s ≤ findSuffix R b fuel s ∧ renamed b (findSuffix R b fuel s) ∉ R ∧
        ∀ m, s ≤ m → m < findSuffix R b fuel s → renamed b m ∈ R := by
  intro fuel
  induction fuel with
  | zero =>
    intro s h
    obtain ⟨m, h1, h2, _⟩ := h
    omega
  | succ fuel ih =>
    intro s h
    simp only [findSuffix]
    by_cases hin : renamed b s ∈ R
    · rw [if_pos hin]
      have hex : ∃ m, s + 1 ≤ m ∧ m < (s + 1) + fuel ∧ renamed b m ∉ R := by
        obtain ⟨m, h1, h2, h3⟩ := h
        refine ⟨m, ?_, by omega, h3⟩
        rcases Nat.eq_or_lt_of_le h1 with he | he
        · exact absurd hin (he ▸ h3)
        · omega
      obtain ⟨ha, hb, hc⟩ := ih (s + 1) hex
      refine ⟨by omega, hb, ?_⟩
      intro m h1 h2
      rcases Nat.eq_or_lt_of_le h1 with he | he
      · exact he ▸ hin
      · exact hc m (by omega) h2
    · rw [if_neg hin]
      exact ⟨Nat.le_refl s, hin, fun m h1 h2 => by omega⟩

theorem findSuffix_fuel (R : List String) (b : String) (s : Nat) :
    ∃ m, s ≤ m ∧ m < s + (R.length + 1) ∧ renamed b m ∉ R := by
  by_contra hc
  push_neg at hc
  have hsub : ((List.range (R.length + 1)).map (fun k => renamed b (s + k))) ⊆ R := by
    intro x hx
    rcases List.mem_map.mp hx with ⟨k, hk, rfl⟩
    exact hc (s + k) (by omega) (by have := List.mem_range.mp hk; omega)
  have hinj : Function.Injective (fun k => renamed b (s + k)) := by
    intro k1 k2 he
    have := renamed_inj b he
    omega
  have hnd : ((List.range (R.length + 1)).map
      (fun k => renamed b (s + k))).Nodup :=
    List.Nodup.map hinj (List.nodup_range _)
  have h1 : ((List.range (R.length + 1)).map
      (fun k => renamed b (s + k))).toFinset.card = R.length + 1 := by
    rw [List.toFinset_card_of_nodup hnd, List.length_map, List.length_range]
  have h2 : ((List.range (R.length + 1)).map
      (fun k => renamed b (s + k))).toFinset ⊆ R.toFinset := by
    intro x hx
    rw [List.mem_toFinset] at hx ⊢
    exact hsub hx
  have h3 := Finset.card_le_card h2
  have h4 := R.toFinset_card_le
  omega

theorem findSuffix_least (R : List String) (b : String) (s : Nat) :
    s ≤ findSuffix R b (R.length + 1) s ∧
    renamed b (findSuffix R b (R.length + 1) s) ∉ R ∧
    ∀ m, s ≤ m → m < findSuffix R b (R.length + 1) s → renamed b m ∈ R :=
  findSuffix_spec R b (R.length + 1) s (findSuffix_fuel R b s)

theorem least_unique {P Q : Nat → Prop} {s r1 r2 : Nat}
    (h1 : s ≤ r1 ∧ ¬ P r1 ∧ ∀ m, s ≤ m → m < r1 → P m)
    (h2 : s ≤ r2 ∧ ¬ Q r2 ∧ ∀ m, s ≤ m → m < r2 → Q m)
    (hPQ : ∀ m, s ≤ m → (P m ↔ Q m)) : r1 = r2 := by
  by_contra hne
  rcases Nat.lt_or_ge r1 r2 with h | h
  · exact h1.2.1 ((hPQ r1 h1.1).mpr (h2.2.2 r1 h1.1 h))
  · have hlt : r2 < r1 := by omega
    exact h2.2.1 ((hPQ r2 h2.1).mp (h1.2.2 r2 h2.1 hlt))

theorem least_from_shift {P : Nat → Prop} {s r : Nat} (hs : 1 ≤ s)
    (h : s ≤ r ∧ ¬ P r ∧ ∀ m, s ≤ m → m < r → P m)
    (hlow : ∀ m, 1 ≤ m → m < s → P m) :
    1 ≤ r ∧ ¬ P r ∧ ∀ m, 1 ≤ m → m < r → P m := by
  refine ⟨by omega, h.2.1, ?_⟩
  intro m h1 h2
  by_cases hm : m < s
  · exact hlow m h1 hm
  · exact h.2.2 m (by omega) h2

/-! ## grpSuffix: the successive suffixes of one duplicated base -/

theorem grpSuffix_succ_spec (R0 : List String) (b : String) (k : Nat) :
    grpSuffix R0 b k + 1 ≤ grpSuffix R0 b (k + 1) ∧
    renamed b (grpSuffix R0 b (k + 1)) ∉ R0 ∧
    ∀ m, grpSuffix R0 b k + 1 ≤ m → m < grpSuffix R0 b (k + 1) →
      renamed b m ∈ R0 :=
  findSuffix_least R0 b (grpSuffix R0 b k + 1)

theorem grpSuffix_lt_succ (R0 : List String) (b : String) (k : Nat) :
    grpSuffix R0 b k < grpSuffix R0 b (k + 1) := by
  have := (grpSuffix_succ_spec R0 b k).1
  omega

theorem grpSuffix_strictMono (R0 : List String) (b : String) {j k : Nat}
    (h : j < k) : grpSuffix R0 b j < grpSuffix R0 b k := by
  induction k with
  | zero => omega
  | succ k ih =>
    rcases Nat.lt_or_ge j k with h2 | h2
    · have := grpSuffix_lt_succ R0 b k
      have := ih h2
      omega
    · have : j = k := by omega
      subst this
      exact grpSuffix_lt_succ R0 b j

theorem grpSuffix_pos (R0 : List String) (b : String) {k : Nat} (h : 1 ≤ k) :
    1 ≤ grpSuffix R0 b k := by
  have := grpSuffix_strictMono R0 b (show 0 < k from h)
  show 1 ≤ grpSuffix R0 b k
  have h0 : grpSuffix R0 b 0 = 0 := rfl
  omega

theorem grpSuffix_below_blocked (R0 : List String) (b : String) (k : Nat) :
    ∀ m, 1 ≤ m → m ≤ grpSuffix R0 b k →
      renamed b m ∈ R0 ∨ ∃ j, 1 ≤ j ∧ j ≤ k ∧ m = grpSuffix R0 b j := by
  induction k with
  | zero =>
    intro m h1 h2
    have h0 : grpSuffix R0 b 0 = 0 := rfl
    omega
  | succ k ih =>
    intro m h1 h2
    by_cases hm : m ≤ grpSuffix R0 b k
    · rcases ih m h1 hm with h | ⟨j, hj1, hj2, hj3⟩
      · exact Or.inl h
      · exact Or.inr ⟨j, hj1, by omega, hj3⟩
    · rcases Nat.eq_or_lt_of_le h2 with he | he
      · exact Or.inr ⟨k + 1, by omega, Nat.le_refl _, he⟩
      · exact Or.inl ((grpSuffix_succ_spec R0 b k).2.2 m (by omega) he)

theorem grpSuffix_is_least (R0 : List String) (b : String) (k : Nat)
    (hk : 1 ≤ k) :
    1 ≤ grpSuffix R0 b k ∧
    ¬ (renamed b (grpSuffix R0 b k) ∈ R0 ∨
        ∃ j, 1 ≤ j ∧ j < k ∧ grpSuffix R0 b k = grpSuffix R0 b j) ∧
    ∀ m, 1 ≤ m → m < grpSuffix R0 b k →
      (renamed b m ∈ R0 ∨ ∃ j, 1 ≤ j ∧ j < k ∧ m = grpSuffix R0 b j) := by
  obtain ⟨k2, rfl⟩ : ∃ k2, k = k2 + 1 := ⟨k - 1, by omega⟩
  refine ⟨grpSuffix_pos R0 b hk, ?_, ?_⟩
  · rintro (h | ⟨j, hj1, hj2, hj3⟩)
    · exact (grpSuffix_succ_spec R0 b k2).2.1 h
    · have := grpSuffix_strictMono R0 b hj2
      omega
  · intro m h1 h2
    by_cases hm : m ≤ grpSuffix R0 b k2
    · rcases grpSuffix_below_blocked R0 b k2 m h1 hm with h | ⟨j, hj1, hj2, hj3⟩
      · exact Or.inl h
      · exact Or.inr ⟨j, hj1, by omega, hj3⟩
    · exact Or.inl ((grpSuffix_succ_spec R0 b k2).2.2 m (by omega) h2)

/-! ## Occurrence positions, prefix counts, and the reserved singletons -/

theorem insertSorted_perm (x : String) (l : List String) :
    (insertSorted x l).Perm (x :: l) := by
  induction l with
  | nil => exact List.Perm.refl _
  | cons y l ih =>
    unfold insertSorted
    split
    · exact List.Perm.refl _
    · exact (ih.cons y).trans (List.Perm.swap x y l)

theorem sortStrings_perm (l : List String) : (sortStrings l).Perm l := by
  induction l with
  | nil => exact List.Perm.refl _
  | cons y l ih =>
    unfold sortStrings at ih ⊢
    rw [List.foldr_cons]
    exact (insertSorted_perm y _).trans (ih.cons y)

theorem sortedUnique_nodup (keys : List String) : (sortedUnique keys).Nodup :=
  ((sortStrings_perm keys.dedup).nodup_iff).mpr keys.nodup_dedup

theorem singlesOf_mem (keys : List String) (x : String) :
    x ∈ singlesOf keys ↔ x ∈ keys ∧ keys.count x = 1 := by
  unfold singlesOf
  rw [List.mem_filter, mem_sortedUnique]
  simp

theorem getD_mem_of_lt {l : List String} {i : Nat} (h : i < l.length)
    (d : String) : l.getD i d ∈ l := by
  rw [List.getD_eq_getElem l d h]
  exact List.getElem_mem h

theorem takeCount_succ_eq (l : List String) (b : String) (i : Nat)
    (h : i < l.length) (hb : l.getD i "" = b) :
    (l.take (i + 1)).count b = (l.take i).count b + 1 := by
  rw [List.take_succ, List.count_append]
  have hg : l[i]? = some l[i] := List.getElem?_eq_getElem h
  rw [hg]
  have hib : l[i] = b := by rw [← List.getD_eq_getElem l "" h]; exact hb
  simp [hib]

theorem takeCount_succ_ne (l : List String) (b : String) (i : Nat)
    (hb : l.getD i "" ≠ b) :
    (l.take (i + 1)).count b = (l.take i).count b := by
  by_cases h : i < l.length
  · rw [List.take_succ, List.count_append]
    have hg : l[i]? = some l[i] := List.getElem?_eq_getElem h
    rw [hg]
    have hib : l[i] ≠ b := by rw [← List.getD_eq_getElem l "" h]; exact hb
    simp [hib, Ne.symm hib]
  · rw [List.take_of_length_le (by omega), List.take_of_length_le (by omega)]

theorem takeCount_mono (l : List String) (b : String) {j i : Nat} (h : j ≤ i) :
    (l.take j).count b ≤ (l.take i).count b := by
  have h1 : (l.take i).take j = l.take j := by
    rw [List.take_take, Nat.min_eq_left h]
  calc (l.take j).count b = ((l.take i).take j).count b := by rw [h1]
    _ ≤ (l.take i).count b := ((l.take i).take_sublist j).count_le b

theorem takeCount_lt (l : List String) (b : String) {j i : Nat} (hj : j < i)
    (hjl : j < l.length) (hb : l.getD j "" = b) :
    (l.take j).count b < (l.take i).count b := by
  have h1 := takeCount_succ_eq l b j hjl hb
  have h2 := takeCount_mono l b (show j + 1 ≤ i from hj)
  omega

theorem takeCount_le_count (l : List String) (b : String) (i : Nat) :
    (l.take i).count b ≤ l.count b :=
  (l.take_sublist i).count_le b

theorem takeCount_exists (l : List String) (b : String) :
    ∀ (i c : Nat), c < (l.take i).count b →
      ∃ j, j < i ∧ l.getD j "" = b ∧ (l.take j).count b = c := by
  intro i
  induction i with
  | zero =>
    intro c hc
    simp at hc
  | succ i ih =>
    intro c hc
    by_cases hb : l.getD i "" = b
    · by_cases hil : i < l.length
      · rw [takeCount_succ_eq l b i hil hb] at hc
        rcases Nat.lt_or_ge c ((l.take i).count b) with h | h
        · obtain ⟨j, h1, h2, h3⟩ := ih c h
          exact ⟨j, by omega, h2, h3⟩
        · exact ⟨i, by omega, hb, by omega⟩
      · rw [List.take_of_length_le (show l.length ≤ i + 1 by omega)] at hc
        rw [← List.take_of_length_le (show l.length ≤ i by omega)] at hc
        obtain ⟨j, h1, h2, h3⟩ := ih c hc
        exact ⟨j, by omega, h2, h3⟩
    · rw [takeCount_succ_ne l b i hb] at hc
      obtain ⟨j, h1, h2, h3⟩ := ih c hc
      exact ⟨j, by omega, h2, h3⟩

theorem takeCount_inj (l : List String) (b : String) {j i : Nat}
    (hjl : j < l.length) (hil : i < l.length)
    (hbj : l.getD j "" = b) (hbi : l.getD i "" = b)
    (h : (l.take j).count b = (l.take i).count b) : j = i := by
  rcases Nat.lt_trichotomy j i with h2 | h2 | h2
  · have := takeCount_lt l b h2 hjl hbj
    omega
  · exact h2
  · have := takeCount_lt l b h2 hil hbi
    omega

theorem posList_mem (l : List String) (b : String) (i : Nat) :
    i ∈ posList l b ↔ i < l.length ∧ l.getD i "" = b := by
  unfold posList
  rw [List.mem_filter, List.mem_range]
  simp

theorem posList_nodup (l : List String) (b : String) : (posList l b).Nodup :=
  (List.nodup_range _).filter _

theorem getD_map_add_one (l : List Nat) (j : Nat) (hj : j < l.length) :
    (l.map (fun i => i + 1)).getD j 0 = l.getD j 0 + 1 := by
  rw [List.getD_eq_getElem _ _ (by simpa using hj), List.getD_eq_getElem _ _ hj,
    List.getElem_map]

theorem posList_cons (x : String) (l : List String) (b : String) :
    posList (x :: l) b =
      (if x = b then [0] else []) ++ (posList l b).map (fun i => i + 1) := by
  unfold posList
  rw [List.length_cons, List.range_succ_eq_map, List.filter_cons]
  have hmap : (List.range l.length).map Nat.succ =
      (List.range l.length).map (fun i => i + 1) := rfl
  rw [hmap, List.filter_map]
  have hpred : ((fun i => (x :: l).getD i "" == b) ∘ (fun i => i + 1)) =
      (fun i => l.getD i "" == b) := by
    funext i
    rfl
  rw [hpred]
  by_cases hx : x = b
  · rw [if_pos hx, if_pos (by simpa using hx)]
    rfl
  · rw [if_neg hx, if_neg (by simpa using hx)]
    rfl

theorem posList_length (l : List String) (b : String) :
    (posList l b).length = l.count b := by
  induction l with
  | nil => rfl
  | cons x l ih =>
    rw [posList_cons, List.length_append, List.length_map, ih]
    by_cases hx : x = b
    · rw [if_pos hx]
      have hc : (x :: l).count b = l.count b + 1 := by
        subst hx
        exact List.count_cons_self x l
      rw [hc]
      simp [Nat.add_comm]
    · rw [if_neg hx]
      have hc : (x :: l).count b = l.count b := by
        rw [List.count_cons]
        simp [Ne.symm hx, hx]
      rw [hc]
      simp

theorem posList_spec (l : List String) (b : String) :
    ∀ j, j < (posList l b).length →
      (posList l b).getD j 0 < l.length ∧
      l.getD ((posList l b).getD j 0) "" = b ∧
      (l.take ((posList l b).getD j 0)).count b = j := by
  induction l with
  | nil =>
    intro j hj
    simp [posList] at hj
  | cons x l ih =>
    intro j hj
    rw [posList_cons] at hj ⊢
    by_cases hx : x = b
    · rw [if_pos hx] at hj ⊢
      cases j with
      | zero =>
        refine ⟨by simp, ?_, by simp⟩
        show (x :: l).getD 0 "" = b
        simpa using hx
      | succ j =>
        have hjl : j < (posList l b).length := by
          simpa using hj
        obtain ⟨h1, h2, h3⟩ := ih j hjl
        have hg : ((0 :: (posList l b).map (fun i => i + 1)).getD (j + 1) 0) =
            (posList l b).getD j 0 + 1 := by
          rw [List.getD_cons_succ, getD_map_add_one _ _ hjl]
        have hgoal : (([0] ++ (posList l b).map (fun i => i + 1)).getD (j + 1) 0)
            = (posList l b).getD j 0 + 1 := hg
        rw [hgoal]
        refine ⟨by simpa using h1, by simpa using h2, ?_⟩
        rw [List.take_succ_cons, List.count_cons]
        rw [h3]
        simp [hx.symm]
    · rw [if_neg hx] at hj ⊢
      have hjl : j < (posList l b).length := by
        simpa using hj
      obtain ⟨h1, h2, h3⟩ := ih j hjl
      have hg : ((List.nil ++ (posList l b).map (fun i => i + 1)).getD j 0) =
          (posList l b).getD j 0 + 1 := by
        rw [List.nil_append, getD_map_add_one _ _ hjl]
      rw [hg]
      refine ⟨by simpa using h1, by simpa using h2, ?_⟩
      rw [List.take_succ_cons, List.count_cons]
      rw [h3]
      simp [Ne.symm hx, hx]

/-! ## Properties of the closed-form canonical names -/

theorem canonName_cases (orig : List String) (i : Nat) (hi : i < orig.length) :
    (canonName orig i = orig.getD i "" ∧
      (orig.count (orig.getD i "") = 1 ∨
        (orig.take i).count (orig.getD i "") = 0)) ∨
    (1 < orig.count (orig.getD i "") ∧
      1 ≤ (orig.take i).count (orig.getD i "") ∧
      canonName orig i = renamed (orig.getD i "")
        (grpSuffix (singlesOf orig) (orig.getD i "")
          ((orig.take i).count (orig.getD i "")))) := by
  unfold canonName
  by_cases h1 : orig.count (orig.getD i "") = 1
  · rw [if_pos h1]
    exact Or.inl ⟨rfl, Or.inl h1⟩
  · rw [if_neg h1]
    by_cases h2 : (orig.take i).count (orig.getD i "") = 0
    · rw [if_pos h2]
      exact Or.inl ⟨rfl, Or.inr h2⟩
    · rw [if_neg h2]
      have hmem : orig.getD i "" ∈ orig := getD_mem_of_lt hi ""
      have hc1 : 0 < orig.count (orig.getD i "") :=
        List.count_pos_iff.mpr hmem
      exact Or.inr ⟨by omega, by omega, rfl⟩

theorem canonName_ne_base (orig : List String) (hDF : DashFreeDups orig)
    {b : String} (hb : b ∈ orig) (hdup : 1 < orig.count b)
    {j : Nat} (hj : j < orig.length) (hne : orig.getD j "" ≠ b) :
    canonName orig j ≠ b := by
  rcases canonName_cases orig j hj with ⟨he, _⟩ | ⟨hd, hc, he⟩
  · rw [he]
    exact hne
  · rw [he]
    intro hcontra
    have hext := dashExtends_of_eq_renamed (orig.getD j "") b _ hcontra.symm
    exact hDF (orig.getD j "") (getD_mem_of_lt hj "") b hb hd hdup hne hext

theorem canonName_ne_renamed (orig : List String) (hDF : DashFreeDups orig)
    {b : String} (hb : b ∈ orig) (hdup : 1 < orig.count b)
    {j : Nat} (hj : j < orig.length)
    (hjdup : 1 < orig.count (orig.getD j ""))
    (hne : orig.getD j "" ≠ b) (m : Nat) :
    canonName orig j ≠ renamed b m := by
  rcases canonName_cases orig j hj with ⟨he, _⟩ | ⟨hd, hc, he⟩
  · rw [he]
    intro hcontra
    have hext := dashExtends_of_eq_renamed b (orig.getD j "") m hcontra
    exact hDF b hb (orig.getD j "") (getD_mem_of_lt hj "") hdup hjdup
      (Ne.symm hne) hext
  · rw [he]
    intro hcontra
    rcases cross_renamed (orig.getD j "") b hne hcontra with hext | hext
    · exact hDF (orig.getD j "") (getD_mem_of_lt hj "") b hb hd hdup hne hext
    · exact hDF b hb (orig.getD j "") (getD_mem_of_lt hj "") hdup hd
        (Ne.symm hne) hext

/-- Under the dash-freedom proviso, the renamed forms of a duplicated base `k`
that are reserved after processing the first `i` positions are exactly the
reserved singletons plus the suffixes already handed out to `k` itself. -/
theorem reserved_renamed_iff (orig : List String) (hDF : DashFreeDups orig)
    {k : String} (hk : k ∈ orig) (hkdup : 1 < orig.count k)
    {i : Nat} (hi : i ≤ orig.length) (m : Nat) :
    (renamed k m ∈ singlesOf orig ∨
      ∃ j, j < i ∧ 1 < orig.count (orig.getD j "") ∧
        renamed k m = canonName orig j) ↔
    (renamed k m ∈ singlesOf orig ∨
      ∃ c2, 1 ≤ c2 ∧ c2 < (orig.take i).count k ∧
        m = grpSuffix (singlesOf orig) k c2) := by
  constructor
  · rintro (h | ⟨j, hj1, hj2, hj3⟩)
    · exact Or.inl h
    · have hjl : j < orig.length := by omega
      by_cases hgd : orig.getD j "" = k
      · rcases canonName_cases orig j hjl with ⟨he, hd⟩ | ⟨hd, hc, he⟩
        · rw [he, hgd] at hj3
          exact absurd hj3 (renamed_ne_base k m)
        · rw [he, hgd] at hj3
          have hm := renamed_inj k hj3
          refine Or.inr ⟨(orig.take j).count k, ?_, ?_, ?_⟩
          · rw [← hgd]
            exact hc
          · exact takeCount_lt orig k hj1 hjl hgd
          · exact hm
      · exact absurd hj3.symm
          (canonName_ne_renamed orig hDF hk hkdup hjl hj2 hgd m)
  · rintro (h | ⟨c2, hc1, hc2, hc3⟩)
    · exact Or.inl h
    · obtain ⟨j, hj1, hj2, hj3⟩ := takeCount_exists orig k i c2 hc2
      have hjl : j < orig.length := by omega
      refine Or.inr ⟨j, hj1, by rw [hj2]; exact hkdup, ?_⟩
      rcases canonName_cases orig j hjl with ⟨he, hd⟩ | ⟨hd, hc, he⟩
      · exfalso
        rw [hj2] at hd
        rw [hj3] at hd
        rcases hd with hd | hd
        · omega
        · omega
      · rw [he, hj2, hj3, ← hc3]

theorem specFold_inv (orig : List String) (hDF : DashFreeDups orig) :
    ∀ (rest : List (Nat × String)) (i : Nat) (out reserved : List String),
      i ≤ orig.length →
      rest = orig.enum.drop i →
      out = (List.range i).map (canonName orig) →
      (∀ x, x ∈ reserved ↔ x ∈ singlesOf orig ∨
        ∃ j, j < i ∧ 1 < orig.count (orig.getD j "") ∧ x = canonName orig j) →
      (rest.foldl (specStep orig) (out, reserved)).1 =
        (List.range orig.length).map (canonName orig) := by
  intro rest
  induction rest with
  | nil =>
    intro i out reserved hi hrest hout hres
    rw [List.foldl_nil]
    have hge : orig.length ≤ i := by
      by_contra hc
      push_neg at hc
      have hd : orig.enum.drop i ≠ [] := by
        apply List.ne_nil_of_length_pos
        rw [List.length_drop, List.enum_length]
        omega
      exact hd hrest.symm
    have hie : i = orig.length := by omega
    rw [hout, hie]
  | cons p rest ih =>
    intro i out reserved hi hrest hout hres
    have hilt : i < orig.length := by
      by_contra hc
      push_neg at hc
      have hnil : orig.enum.drop i = [] := by
        apply List.eq_nil_of_length_eq_zero
        rw [List.length_drop, List.enum_length]
        omega
      rw [hnil] at hrest
      exact List.cons_ne_nil p rest hrest
    have hienum : i < orig.enum.length := by
      rw [List.enum_length]
      exact hilt
    have hdrop : orig.enum.drop i = orig.enum[i] :: orig.enum.drop (i + 1) :=
      List.drop_eq_getElem_cons hienum
    have hpe : p = (i, orig.getD i "") := by
      rw [hdrop] at hrest
      have h1 : p = orig.enum[i] := (List.cons.injEq _ _ _ _ ▸ hrest).1
      rw [h1, List.getElem_enum, List.getD_eq_getElem orig "" hilt]
    have hrest2 : rest = orig.enum.drop (i + 1) := by
      rw [hdrop] at hrest
      exact (List.cons.injEq _ _ _ _ ▸ hrest).2
    have hkmem : orig.getD i "" ∈ orig := getD_mem_of_lt hilt ""
    have hkpos : 0 < orig.count (orig.getD i "") :=
      List.count_pos_iff.mpr hkmem
    rw [List.foldl_cons, hpe]
    by_cases h1 : orig.count (orig.getD i "") = 1
    · have hstep : specStep orig (out, reserved) (i, orig.getD i "") =
          (out ++ [orig.getD i ""], reserved) := by
        simp only [specStep]
        rw [if_pos (by simpa using h1)]
      rw [hstep]
      apply ih (i + 1) _ _ (by omega) hrest2 ?_ ?_
      · rw [hout, List.range_succ, List.map_append, List.map_cons, List.map_nil]
        have hcn : canonName orig i = orig.getD i "" := by
          unfold canonName
          rw [if_pos h1]
        rw [hcn]
      · intro x
        rw [hres x]
        constructor
        · rintro (h | ⟨j, hj1, hj2, hj3⟩)
          · exact Or.inl h
          · exact Or.inr ⟨j, by omega, hj2, hj3⟩
        · rintro (h | ⟨j, hj1, hj2, hj3⟩)
          · exact Or.inl h
          · rcases Nat.lt_or_ge j i with h2 | h2
            · exact Or.inr ⟨j, h2, hj2, hj3⟩
            · exfalso
              have hji : j = i := by omega
              rw [hji] at hj2
              omega
    · by_cases h2 : (orig.take i).count (orig.getD i "") = 0
      · have hstep : specStep orig (out, reserved) (i, orig.getD i "") =
            (out ++ [orig.getD i ""], orig.getD i "" :: reserved) := by
          simp only [specStep]
          rw [if_neg (by simpa using h1), if_pos (by simpa using h2)]
        rw [hstep]
        have hcn : canonName orig i = orig.getD i "" := by
          unfold canonName
          rw [if_neg h1, if_pos h2]
        apply ih (i + 1) _ _ (by omega) hrest2 ?_ ?_
        · rw [hout, List.range_succ, List.map_append, List.map_cons,
            List.map_nil, hcn]
        · intro x
          rw [List.mem_cons, hres x]
          constructor
          · rintro (h | h | ⟨j, hj1, hj2, hj3⟩)
            · exact Or.inr ⟨i, by omega, by omega, by rw [h, hcn]⟩
            · exact Or.inl h
            · exact Or.inr ⟨j, by omega, hj2, hj3⟩
          · rintro (h | ⟨j, hj1, hj2, hj3⟩)
            · exact Or.inr (Or.inl h)
            · rcases Nat.lt_or_ge j i with h3 | h3
              · exact Or.inr (Or.inr ⟨j, h3, hj2, hj3⟩)
              · have hji : j = i := by omega
                rw [hji, hcn] at hj3
                exact Or.inl hj3
      · have hstep : specStep orig (out, reserved) (i, orig.getD i "") =
            (out ++ [renamed (orig.getD i "")
                (findSuffix reserved (orig.getD i "") (reserved.length + 1) 1)],
              renamed (orig.getD i "")
                (findSuffix reserved (orig.getD i "") (reserved.length + 1) 1)
                :: reserved) := by
          simp only [specStep]
          rw [if_neg (by simpa using h1), if_neg (by simpa using h2)]
        rw [hstep]
        have hkdup : 1 < orig.count (orig.getD i "") := by omega
        have hgs : findSuffix reserved (orig.getD i "") (reserved.length + 1) 1 =
            grpSuffix (singlesOf orig) (orig.getD i "")
              ((orig.take i).count (orig.getD i "")) := by
          refine @least_unique
            (fun m => renamed (orig.getD i "") m ∈ reserved)
            (fun m => renamed (orig.getD i "") m ∈ singlesOf orig ∨
              ∃ c2, 1 ≤ c2 ∧ c2 < (orig.take i).count (orig.getD i "") ∧
                m = grpSuffix (singlesOf orig) (orig.getD i "") c2)
            1 _ _
            (findSuffix_least reserved (orig.getD i "") 1)
            (grpSuffix_is_least (singlesOf orig) (orig.getD i "")
              ((orig.take i).count (orig.getD i "")) (by omega)) ?_
          intro m hm
          exact (hres (renamed (orig.getD i "") m)).trans
            (reserved_renamed_iff orig hDF hkmem hkdup (by omega) m)
        have hcn : canonName orig i = renamed (orig.getD i "")
            (findSuffix reserved (orig.getD i "") (reserved.length + 1) 1) := by
          unfold canonName
          rw [if_neg h1, if_neg h2, hgs]
        apply ih (i + 1) _ _ (by omega) hrest2 ?_ ?_
        · rw [hout, List.range_succ, List.map_append, List.map_cons,
            List.map_nil, hcn]
        · intro x
          rw [List.mem_cons, hres x]
          constructor
          · rintro (h | h | ⟨j, hj1, hj2, hj3⟩)
            · exact Or.inr ⟨i, by omega, hkdup, by rw [h, hcn]⟩
            · exact Or.inl h
            · exact Or.inr ⟨j, by omega, hj2, hj3⟩
          · rintro (h | ⟨j, hj1, hj2, hj3⟩)
            · exact Or.inr (Or.inl h)
            · rcases Nat.lt_or_ge j i with h3 | h3
              · exact Or.inr (Or.inr ⟨j, h3, hj2, hj3⟩)
              · have hji : j = i := by omega
                rw [hji, hcn] at hj3
                exact Or.inl hj3

theorem dedupSpecNames_eq_canonNames (orig : List String)
    (hDF : DashFreeDups orig) : dedupSpecNames orig = canonNames orig := by
  unfold dedupSpecNames canonNames
  apply specFold_inv orig hDF orig.enum 0 [] _ (by omega) (by simp) (by simp) ?_
  intro x
  rw [List.mem_filter, singlesOf_mem]
  constructor
  · intro h
    exact Or.inl ⟨h.1, by simpa using h.2⟩
  · rintro (h | ⟨j, hj, _, _⟩)
    · exact ⟨h.1, by simpa using h.2⟩
    · omega

theorem getD_set_eq (l : List String) (i : Nat) (v : String)
    (h : i < l.length) : (l.set i v).getD i "" = v := by
  rw [List.getD_eq_getElem _ _ (by rw [List.length_set]; exact h)]
  exact List.getElem_set_self _

theorem getD_set_ne (l : List String) (i j : Nat) (v : String) (h : i ≠ j) :
    (l.set i v).getD j "" = l.getD j "" := by
  by_cases hj : j < l.length
  · rw [List.getD_eq_getElem _ _ (by rw [List.length_set]; exact hj),
      List.getD_eq_getElem _ _ hj]
    exact List.getElem_set_ne h _
  · rw [List.getD_eq_default _ _ (by rw [List.length_set]; omega),
      List.getD_eq_default _ _ (by omega)]

/-- Invariant of the occurrence loop (`for i in numpy.flatnonzero(keys == key)`,
data.py lines 125-132) once the first occurrence of the duplicated base `b` has
been reserved: every later occurrence receives the successive `grpSuffix`
suffixes of its prefix count. -/
theorem occFold_inv (orig : List String) (b : String) :
    ∀ (rest : List Nat) (t : Nat) (ks R : List String) (suffix : Nat),
      1 ≤ t →
      t + rest.length = orig.count b →
      ks.length = orig.length →
      (∀ j, j < rest.length → (orig.take (rest.getD j 0)).count b = t + j) →
      rest.Nodup →
      (∀ p ∈ rest, p < orig.length) →
      (∀ m, renamed b m ∈ R ↔ renamed b m ∈ singlesOf orig ∨
        ∃ c, 1 ≤ c ∧ c ≤ t - 1 ∧ m = grpSuffix (singlesOf orig) b c) →
      b ∈ R →
      ((t = 1 ∧ suffix = 1) ∨
        (2 ≤ t ∧ suffix = grpSuffix (singlesOf orig) b (t - 1))) →
      (rest.foldl (occStep b) (ks, R, suffix)).1.length = orig.length ∧
      (∀ i, i < orig.length →
        (rest.foldl (occStep b) (ks, R, suffix)).1.getD i "" =
          if i ∈ rest then
            renamed b (grpSuffix (singlesOf orig) b ((orig.take i).count b))
          else ks.getD i "") ∧
      (∀ x, x ∈ (rest.foldl (occStep b) (ks, R, suffix)).2.1 ↔
        x ∈ R ∨ ∃ c, t ≤ c ∧ c ≤ orig.count b - 1 ∧
          x = renamed b (grpSuffix (singlesOf orig) b c)) := by
  intro rest
  induction rest with
  | nil =>
    intro t ks R suffix ht htc hkl hcnt hnd hlt hR hbR hsuf
    rw [List.foldl_nil]
    refine ⟨hkl, ?_, ?_⟩
    · intro i hi
      rw [if_neg (by simp)]
    · intro x
      constructor
      · exact fun h => Or.inl h
      · rintro (h | ⟨c, hc1, hc2, _⟩)
        · exact h
        · exfalso
          simp only [List.length_nil] at htc
          omega
  | cons p rest ih =>
    intro t ks R suffix ht htc hkl hcnt hnd hlt hR hbR hsuf
    rw [List.foldl_cons]
    have hstep : occStep b (ks, R, suffix) p =
        (ks.set p (renamed b (findSuffix R b (R.length + 1) suffix)),
          renamed b (findSuffix R b (R.length + 1) suffix) :: R,
          findSuffix R b (R.length + 1) suffix) := by
      simp only [occStep]
      rw [if_pos hbR]
    rw [hstep]
    have hsuffpos : 1 ≤ suffix := by
      rcases hsuf with ⟨_, h⟩ | ⟨h2, h⟩
      · omega
      · rw [h]
        exact grpSuffix_pos _ _ (by omega)
    have hlow : ∀ m, 1 ≤ m → m < suffix → renamed b m ∈ R := by
      intro m h1m hms
      rcases hsuf with ⟨ht1, hs1⟩ | ⟨ht2, hs2⟩
      · omega
      · rw [hs2] at hms
        have hblock := (grpSuffix_is_least (singlesOf orig) b (t - 1)
          (by omega)).2.2 m h1m hms
        rw [hR m]
        rcases hblock with h | ⟨j, hj1, hj2, hj3⟩
        · exact Or.inl h
        · exact Or.inr ⟨j, hj1, by omega, hj3⟩
    have hshift := @least_from_shift (fun m => renamed b m ∈ R) suffix
      (findSuffix R b (R.length + 1) suffix) hsuffpos
      (findSuffix_least R b suffix) hlow
    have hgs : findSuffix R b (R.length + 1) suffix =
        grpSuffix (singlesOf orig) b t := by
      refine @least_unique
        (fun m => renamed b m ∈ R)
        (fun m => renamed b m ∈ singlesOf orig ∨
          ∃ c, 1 ≤ c ∧ c < t ∧ m = grpSuffix (singlesOf orig) b c)
        1 _ _ hshift (grpSuffix_is_least (singlesOf orig) b t ht) ?_
      intro m hm
      refine (hR m).trans ?_
      constructor
      · rintro (h | ⟨c, h1, h2, h3⟩)
        · exact Or.inl h
        · exact Or.inr ⟨c, h1, by omega, h3⟩
      · rintro (h | ⟨c, h1, h2, h3⟩)
        · exact Or.inl h
        · exact Or.inr ⟨c, h1, by omega, h3⟩
    rw [hgs]
    have hcnt0 : (orig.take p).count b = t := by
      have h0 := hcnt 0 (by simp)
      simpa using h0
    have hpn : p < orig.length := hlt p (List.mem_cons_self p rest)
    have hpks : p < ks.length := by rw [hkl]; exact hpn
    have hpnotrest : p ∉ rest := (List.nodup_cons.mp hnd).1
    obtain ⟨ihlen, ihkeys, ihres⟩ := ih (t + 1)
      (ks.set p (renamed b (grpSuffix (singlesOf orig) b t)))
      (renamed b (grpSuffix (singlesOf orig) b t) :: R)
      (grpSuffix (singlesOf orig) b t)
      (by omega)
      (by simp only [List.length_cons] at htc; omega)
      (by rw [List.length_set]; exact hkl)
      (by
        intro j hj
        have h1 := hcnt (j + 1) (by simp only [List.length_cons]; omega)
        rw [List.getD_cons_succ] at h1
        rw [h1]
        omega)
      ((List.nodup_cons.mp hnd).2)
      (fun q hq => hlt q (List.mem_cons_of_mem p hq))
      (by
        intro m
        rw [List.mem_cons, hR m]
        constructor
        · rintro (h | h | ⟨c, h1, h2, h3⟩)
          · exact Or.inr ⟨t, by omega, by omega, renamed_inj b h⟩
          · exact Or.inl h
          · exact Or.inr ⟨c, h1, by omega, h3⟩
        · rintro (h | ⟨c, h1, h2, h3⟩)
          · exact Or.inr (Or.inl h)
          · rcases Nat.lt_or_ge c t with h4 | h4
            · exact Or.inr (Or.inr ⟨c, h1, by omega, h3⟩)
            · have hct : c = t := by omega
              exact Or.inl (by rw [h3, hct]))
      (List.mem_cons_of_mem _ hbR)
      (Or.inr ⟨by omega, by rw [Nat.add_sub_cancel]⟩)
    refine ⟨ihlen, ?_, ?_⟩
    · intro i hi
      rw [ihkeys i hi]
      by_cases hirest : i ∈ rest
      · rw [if_pos hirest, if_pos (List.mem_cons_of_mem p hirest)]
      · rw [if_neg hirest]
        by_cases hip : i = p
        · rw [if_pos (by rw [hip]; exact List.mem_cons_self p rest)]
          subst hip
          rw [getD_set_eq ks i _ hpks, hcnt0]
        · rw [if_neg (by
            intro hc
            rcases List.mem_cons.mp hc with h | h
            · exact hip h
            · exact hirest h)]
          exact getD_set_ne ks p i _ (fun he => hip he.symm)
    · intro x
      rw [ihres x, List.mem_cons]
      constructor
      · rintro ((h | h) | ⟨c, h1, h2, h3⟩)
        · refine Or.inr ⟨t, by omega, ?_, h⟩
          simp only [List.length_cons] at htc
          omega
        · exact Or.inl h
        · exact Or.inr ⟨c, by omega, h2, h3⟩
      · rintro (h | ⟨c, h1, h2, h3⟩)
        · exact Or.inl (Or.inr h)
        · rcases Nat.lt_or_ge t c with h4 | h4
          · exact Or.inr ⟨c, by omega, h2, h3⟩
          · have hct : c = t := by omega
            rw [hct] at h3
            exact Or.inl (Or.inl h3)

theorem canonNames_getD (orig : List String) {i : Nat} (hi : i < orig.length) :
    (canonNames orig).getD i "" = canonName orig i := by
  unfold canonNames
  rw [List.getD_eq_getElem _ _ (by simpa using hi), List.getElem_map,
    List.getElem_range]

/-- Invariant of the duplicated-group loop (`for key, count in
zip(key_dictionary, key_counts)`, data.py lines 120-132): after processing
the groups in `done`, the keys array holds the canonical name at every
position whose base is in `done`, and the reserved set holds the singletons
plus all canonical names of processed positions. -/
theorem groupFold_inv (orig : List String) (hDF : DashFreeDups orig) :
    ∀ (todo done : List String) (ks R : List String),
      (∀ b2 ∈ todo, b2 ∈ orig ∧ 1 < orig.count b2) →
      (∀ b2 ∈ done, 1 < orig.count b2) →
      (done ++ todo).Nodup →
      ks.length = orig.length →
      (∀ i, i < orig.length → ks.getD i "" =
        if orig.getD i "" ∈ done then canonName orig i else orig.getD i "") →
      (∀ x, x ∈ R ↔ x ∈ singlesOf orig ∨
        ∃ j, j < orig.length ∧ orig.getD j "" ∈ done ∧
          x = canonName orig j) →
      (todo.foldl groupStep (ks, R)).1.length = orig.length ∧
      (∀ i, i < orig.length → (todo.foldl groupStep (ks, R)).1.getD i "" =
        if orig.getD i "" ∈ done ++ todo then canonName orig i
        else orig.getD i "") ∧
      (∀ x, x ∈ (todo.foldl groupStep (ks, R)).2 ↔ x ∈ singlesOf orig ∨
        ∃ j, j < orig.length ∧ orig.getD j "" ∈ done ++ todo ∧
          x = canonName orig j) := by
  intro todo
  induction todo with
  | nil =>
    intro done ks R htodo hdone hnd hkl hks hres
    rw [List.foldl_nil]
    refine ⟨hkl, ?_, ?_⟩
    · intro i hi
      rw [List.append_nil]
      exact hks i hi
    · intro x
      rw [List.append_nil]
      exact hres x
  | cons b todo ih =>
    intro done ks R htodo hdone hnd hkl hks hres
    obtain ⟨hb, hbdup⟩ := htodo b (List.mem_cons_self b todo)
    have hbnotdone : b ∉ done := by
      intro hc
      have hdisj := (List.nodup_append.mp hnd).2.2
      exact hdisj hc (List.mem_cons_self b todo)
    rw [List.foldl_cons]
    -- the recomputed flatnonzero equals the original occurrence positions
    have hidx : (List.range ks.length).filter (fun i => ks.getD i "" == b) =
        posList orig b := by
      rw [hkl]
      unfold posList
      apply List.filter_congr
      intro i hi
      have hilt : i < orig.length := List.mem_range.mp hi
      by_cases hdone_i : orig.getD i "" ∈ done
      · rw [hks i hilt, if_pos hdone_i]
        have h2 : orig.getD i "" ≠ b := by
          intro hc
          exact hbnotdone (hc ▸ hdone_i)
        have h1 : canonName orig i ≠ b :=
          canonName_ne_base orig hDF hb hbdup hilt h2
        have hb1 : (canonName orig i == b) = false := beq_eq_false_iff_ne.mpr h1
        have hb2 : (orig.getD i "" == b) = false := beq_eq_false_iff_ne.mpr h2
        rw [hb1, hb2]
      · rw [hks i hilt, if_neg hdone_i]
    have hstep : groupStep (ks, R) b =
        (((posList orig b).foldl (occStep b) (ks, R, 1)).1,
          ((posList orig b).foldl (occStep b) (ks, R, 1)).2.1) := by
      simp only [groupStep]
      rw [hidx]
    rw [hstep]
    -- split off the first occurrence
    have hplne : posList orig b ≠ [] := by
      apply List.ne_nil_of_length_pos
      rw [posList_length]
      omega
    obtain ⟨p0, rest, hplist⟩ := List.exists_cons_of_ne_nil hplne
    have hpl_len : 1 + rest.length = orig.count b := by
      have := posList_length orig b
      rw [hplist] at this
      simpa [Nat.add_comm] using this
    have hspec0 := posList_spec orig b 0 (by rw [posList_length]; omega)
    rw [hplist] at hspec0
    simp only [List.getD_cons_zero] at hspec0
    obtain ⟨hp0lt, hp0b, hp0cnt⟩ := hspec0
    have hrest_spec : ∀ j, j < rest.length →
        rest.getD j 0 < orig.length ∧
        orig.getD (rest.getD j 0) "" = b ∧
        (orig.take (rest.getD j 0)).count b = 1 + j := by
      intro j hj
      have hs := posList_spec orig b (j + 1) (by
        rw [hplist, List.length_cons]
        omega)
      rw [hplist, List.getD_cons_succ] at hs
      exact ⟨hs.1, hs.2.1, by rw [hs.2.2]; omega⟩
    have hpl_nodup : (p0 :: rest).Nodup := hplist ▸ posList_nodup orig b
    -- the base itself is not yet reserved
    have hbnotR : b ∉ R := by
      intro hc
      rcases (hres b).mp hc with h | ⟨j, hj1, hj2, hj3⟩
      · have := (singlesOf_mem orig b).mp h
        omega
      · have hne : orig.getD j "" ≠ b := by
          intro hc2
          exact hbnotdone (hc2 ▸ hj2)
        exact canonName_ne_base orig hDF hb hbdup hj1 hne hj3.symm
    rw [hplist, List.foldl_cons]
    have hstep2 : occStep b (ks, R, 1) p0 = (ks, b :: R, 1) := by
      simp only [occStep]
      rw [if_neg hbnotR]
    rw [hstep2]
    -- run the inner loop over the remaining occurrences
    obtain ⟨ilen, ikeys, ires⟩ := occFold_inv orig b rest 1 ks (b :: R) 1
      (by omega)
      hpl_len
      hkl
      (fun j hj => by
        have := (hrest_spec j hj).2.2
        rw [this])
      ((List.nodup_cons.mp hpl_nodup).2)
      (fun q hq => (by
        have hqm : q ∈ posList orig b := by
          rw [hplist]
          exact List.mem_cons_of_mem p0 hq
        exact ((posList_mem orig b q).mp hqm).1))
      (by
        intro m
        rw [List.mem_cons]
        constructor
        · rintro (h | h)
          · exact absurd h (renamed_ne_base b m)
          · rcases (hres _).mp h with h2 | ⟨j, hj1, hj2, hj3⟩
            · exact Or.inl h2
            · exfalso
              have hne : orig.getD j "" ≠ b := by
                intro hc2
                exact hbnotdone (hc2 ▸ hj2)
              exact canonName_ne_renamed orig hDF hb hbdup hj1
                (hdone _ hj2) hne m hj3.symm
        · rintro (h | ⟨c, hc1, hc2, _⟩)
          · exact Or.inr ((hres _).mpr (Or.inl h))
          · omega)
      (List.mem_cons_self b R)
      (Or.inl ⟨rfl, rfl⟩)
    -- re-establish the outer invariant for done ++ [b]
    have hmem_rest_iff : ∀ i, i ∈ rest →
        orig.getD i "" = b ∧ 1 ≤ (orig.take i).count b := by
      intro i hi
      obtain ⟨j, hjl, hje⟩ := List.getElem_of_mem hi
      have hj := hrest_spec j hjl
      rw [List.getD_eq_getElem rest 0 hjl, hje] at hj
      exact ⟨hj.2.1, by omega⟩
    have happ : (done ++ [b]) ++ todo = done ++ b :: todo := by
      rw [List.append_assoc, List.singleton_append]
    obtain ⟨flen, fkeys, fres⟩ := ih (done ++ [b])
      ((rest.foldl (occStep b) (ks, b :: R, 1)).1)
      ((rest.foldl (occStep b) (ks, b :: R, 1)).2.1)
      (fun b2 hb2 => htodo b2 (List.mem_cons_of_mem b hb2))
      (by
        intro b2 hb2
        rcases List.mem_append.mp hb2 with h | h
        · exact hdone b2 h
        · rw [List.mem_singleton.mp h]
          exact hbdup)
      (by rw [happ]; exact hnd)
      ilen
      (by
        intro i hi
        rw [ikeys i hi]
        by_cases hirest : i ∈ rest
        · obtain ⟨hib, hicnt⟩ := hmem_rest_iff i hirest
          rw [if_pos hirest, if_pos (by
            rw [hib]
            exact List.mem_append.mpr (Or.inr (List.mem_singleton_self b)))]
          unfold canonName
          rw [hib, if_neg (by omega), if_neg (by omega)]
        · rw [if_neg hirest]
          by_cases hip : i = p0
          · subst hip
            rw [hks i hi, if_neg (by rw [hp0b]; exact hbnotdone),
              if_pos (by
                rw [hp0b]
                exact List.mem_append.mpr (Or.inr (List.mem_singleton_self b)))]
            unfold canonName
            rw [hp0b, if_neg (by omega), if_pos hp0cnt]
          · have hib : orig.getD i "" ≠ b := by
              intro hc
              have him : i ∈ posList orig b := (posList_mem orig b i).mpr ⟨hi, hc⟩
              rw [hplist] at him
              rcases List.mem_cons.mp him with h | h
              · exact hip h
              · exact hirest h
            rw [hks i hi]
            by_cases hdone_i : orig.getD i "" ∈ done
            · rw [if_pos hdone_i, if_pos (List.mem_append.mpr (Or.inl hdone_i))]
            · rw [if_neg hdone_i, if_neg (by
                intro hc
                rcases List.mem_append.mp hc with h | h
                · exact hdone_i h
                · exact hib (List.mem_singleton.mp h))])
      (by
        intro x
        rw [ires x, List.mem_cons]
        constructor
        · rintro ((h | h) | ⟨c, hc1, hc2, hc3⟩)
          · refine Or.inr ⟨p0, hp0lt, ?_, ?_⟩
            · rw [hp0b]
              exact List.mem_append.mpr (Or.inr (List.mem_singleton_self b))
            · rw [h]
              unfold canonName
              rw [hp0b, if_neg (by omega), if_pos hp0cnt]
          · rcases (hres x).mp h with h2 | ⟨j, hj1, hj2, hj3⟩
            · exact Or.inl h2
            · exact Or.inr ⟨j, hj1, List.mem_append.mpr (Or.inl hj2), hj3⟩
          · have hcc : c < (orig.take orig.length).count b := by
              rw [List.take_length]
              omega
            obtain ⟨j, hj1, hj2, hj3⟩ := takeCount_exists orig b orig.length c hcc
            refine Or.inr ⟨j, hj1, ?_, ?_⟩
            · rw [hj2]
              exact List.mem_append.mpr (Or.inr (List.mem_singleton_self b))
            · rw [hc3]
              unfold canonName
              rw [hj2, hj3, if_neg (by omega), if_neg (by omega)]
        · rintro (h | ⟨j, hj1, hj2, hj3⟩)
          · exact Or.inl (Or.inr ((hres x).mpr (Or.inl h)))
          · rcases List.mem_append.mp hj2 with h2 | h2
            · exact Or.inl (Or.inr ((hres x).mpr (Or.inr ⟨j, hj1, h2, hj3⟩)))
            · have hjb : orig.getD j "" = b := List.mem_singleton.mp h2
              rcases canonName_cases orig j hj1 with ⟨he, hd⟩ | ⟨hd, hc, he⟩
              · rw [hjb] at he hd
                rcases hd with hd | hd
                · omega
                · rw [hj3, he]
                  exact Or.inl (Or.inl rfl)
              · rw [hjb] at hd hc he
                refine Or.inr ⟨(orig.take j).count b, hc, ?_, by rw [hj3, he]⟩
                have := takeCount_lt orig b hj1 hj1 hjb
                rw [List.take_length] at this
                omega)
    refine ⟨flen, ?_, ?_⟩
    · intro i hi
      rw [fkeys i hi, happ]
    · intro x
      rw [fres x, happ]

theorem dedupKeys_eq_canonNames (orig : List String) (hDF : DashFreeDups orig) :
    dedupKeys orig = canonNames orig := by
  unfold dedupKeys
  have hinit : (sortedUnique orig).filter (fun k => orig.count k == 1) =
      singlesOf orig := rfl
  rw [hinit]
  obtain ⟨hlen, hkeys, _⟩ := groupFold_inv orig hDF
    ((sortedUnique orig).filter (fun k => 1 < orig.count k)) [] orig
    (singlesOf orig)
    (by
      intro b2 hb2
      rw [List.mem_filter] at hb2
      exact ⟨(mem_sortedUnique b2 orig).mp hb2.1, by simpa using hb2.2⟩)
    (by intro b2 hb2; exact absurd hb2 (List.not_mem_nil b2))
    (by
      rw [List.nil_append]
      exact (sortedUnique_nodup orig).filter _)
    rfl
    (by intro i hi; rw [if_neg (List.not_mem_nil _)])
    (by
      intro x
      constructor
      · exact fun h => Or.inl h
      · rintro (h | ⟨j, _, hj, _⟩)
        · exact h
        · exact absurd hj (List.not_mem_nil _))
  apply List.ext_getElem
  · rw [hlen]
    unfold canonNames
    rw [List.length_map, List.length_range]
  · intro i h1 h2
    have hi : i < orig.length := by rw [← hlen]; exact h1
    rw [← List.getD_eq_getElem _ "" h1, ← List.getD_eq_getElem _ "" h2,
      canonNames_getD orig hi, hkeys i hi, List.nil_append]
    by_cases hmem : orig.getD i "" ∈
        (sortedUnique orig).filter (fun k => 1 < orig.count k)
    · rw [if_pos hmem]
    · rw [if_neg hmem]
      have hin : orig.getD i "" ∈ orig := getD_mem_of_lt hi ""
      have hcnt1 : orig.count (orig.getD i "") = 1 := by
        have hpos : 0 < orig.count (orig.getD i "") :=
          List.count_pos_iff.mpr hin
        by_contra hc
        apply hmem
        rw [List.mem_filter]
        exact ⟨(mem_sortedUnique _ orig).mpr hin, by
          simp only [decide_eq_true_eq]
          omega⟩
      unfold canonName
      rw [if_pos hcnt1]

theorem canonName_inj (orig : List String) (hDF : DashFreeDups orig)
    {i j : Nat} (hi : i < orig.length) (hj : j < orig.length)
    (h : canonName orig i = canonName orig j) : i = j := by
  have hmi : orig.getD i "" ∈ orig := getD_mem_of_lt hi ""
  have hmj : orig.getD j "" ∈ orig := getD_mem_of_lt hj ""
  have hci : 0 < orig.count (orig.getD i "") := List.count_pos_iff.mpr hmi
  have hcj : 0 < orig.count (orig.getD j "") := List.count_pos_iff.mpr hmj
  have htci : (orig.take i).count (orig.getD i "") <
      orig.count (orig.getD i "") := by
    have := takeCount_lt orig (orig.getD i "") hi hi rfl
    rw [List.take_length] at this
    omega
  have htcj : (orig.take j).count (orig.getD j "") <
      orig.count (orig.getD j "") := by
    have := takeCount_lt orig (orig.getD j "") hj hj rfl
    rw [List.take_length] at this
    omega
  rcases canonName_cases orig i hi with ⟨hei, hdi⟩ | ⟨hdi, hci2, hei⟩ <;>
    rcases canonName_cases orig j hj with ⟨hej, hdj⟩ | ⟨hdj, hcj2, hej⟩
  · -- both bare
    rw [hei, hej] at h
    have htci0 : (orig.take i).count (orig.getD i "") = 0 := by
      rcases hdi with h2 | h2
      · omega
      · exact h2
    have htcj0 : (orig.take j).count (orig.getD j "") = 0 := by
      rcases hdj with h2 | h2
      · omega
      · exact h2
    refine takeCount_inj orig (orig.getD i "") hi hj rfl h.symm ?_
    rw [htci0, h, htcj0]
  · -- i bare, j renamed
    rw [hei, hej] at h
    exfalso
    by_cases h1 : orig.count (orig.getD i "") = 1
    · -- a reserved singleton equals a handed-out renamed form: impossible
      have hsingle : orig.getD i "" ∈ singlesOf orig :=
        (singlesOf_mem orig _).mpr ⟨hmi, h1⟩
      rw [h] at hsingle
      exact (grpSuffix_is_least (singlesOf orig) (orig.getD j "")
        ((orig.take j).count (orig.getD j "")) hcj2).2.1 (Or.inl hsingle)
    · have hdi2 : 1 < orig.count (orig.getD i "") := by omega
      by_cases hab : orig.getD i "" = orig.getD j ""
      · rw [hab] at h
        exact renamed_ne_base _ _ h.symm
      · have hext := dashExtends_of_eq_renamed (orig.getD j "")
          (orig.getD i "") _ h
        exact hDF (orig.getD j "") hmj (orig.getD i "") hmi hdj hdi2
          (Ne.symm hab) hext
  · -- i renamed, j bare
    rw [hei, hej] at h
    exfalso
    by_cases h1 : orig.count (orig.getD j "") = 1
    · have hsingle : orig.getD j "" ∈ singlesOf orig :=
        (singlesOf_mem orig _).mpr ⟨hmj, h1⟩
      rw [← h] at hsingle
      exact (grpSuffix_is_least (singlesOf orig) (orig.getD i "")
        ((orig.take i).count (orig.getD i "")) hci2).2.1 (Or.inl hsingle)
    · have hdj2 : 1 < orig.count (orig.getD j "") := by omega
      by_cases hab : orig.getD j "" = orig.getD i ""
      · rw [hab] at h
        exact renamed_ne_base _ _ h
      · have hext := dashExtends_of_eq_renamed (orig.getD i "")
          (orig.getD j "") _ h.symm
        exact hDF (orig.getD i "") hmi (orig.getD j "") hmj hdi hdj2
          (Ne.symm hab) hext
  · -- both renamed
    rw [hei, hej] at h
    by_cases hab : orig.getD i "" = orig.getD j ""
    · rw [← hab] at h
      have hgg := renamed_inj _ h
      have htc : (orig.take i).count (orig.getD i "") =
          (orig.take j).count (orig.getD i "") := by
        by_contra hc
        rcases Nat.lt_or_ge ((orig.take i).count (orig.getD i ""))
            ((orig.take j).count (orig.getD i "")) with h4 | h4
        · have := grpSuffix_strictMono (singlesOf orig) (orig.getD i "") h4
          rw [hab] at hgg
          rw [hab] at this
          omega
        · have h5 : (orig.take j).count (orig.getD i "") <
              (orig.take i).count (orig.getD i "") := by omega
          have := grpSuffix_strictMono (singlesOf orig) (orig.getD i "") h5
          rw [hab] at hgg
          rw [hab] at this
          omega
      exact takeCount_inj orig (orig.getD i "") hi hj rfl hab.symm htc
    · exfalso
      rcases cross_renamed (orig.getD i "") (orig.getD j "") hab h with
        hext | hext
      · exact hDF (orig.getD i "") hmi (orig.getD j "") hmj hdi hdj hab hext
      · exact hDF (orig.getD j "") hmj (orig.getD i "") hmi hdj hdi
          (Ne.symm hab) hext

theorem canonNames_nodup (orig : List String) (hDF : DashFreeDups orig) :
    (canonNames orig).Nodup := by
  unfold canonNames
  refine List.Nodup.map_on ?_ (List.nodup_range _)
  intro x hx y hy hxy
  exact canonName_inj orig hDF (List.mem_range.mp hx) (List.mem_range.mp hy)
    hxy

/-- C1: whenever the `Table` constructor succeeds on a sequence source whose
duplicated names satisfy the dash-freedom proviso (no duplicated name extends
another duplicated name by a `-` suffix), the stored column names are exactly
the names produced by the claim's left-to-right renaming procedure
(`dedupSpecNames`): names occurring once are kept, the first occurrence of a
duplicated base keeps the bare name, and each later occurrence becomes
`base-n` for the least positive `n` whose renamed form is not yet reserved.
In particular the stored names are pairwise distinct. -/
theorem construct_dedup_names {α : Type} (data : List (String × List α))
    (t : Columns α) (hDF : DashFreeDups (data.map Prod.fst))
    (hok : mkTable data = Except.ok t) :
    keysOf t = dedupSpecNames (data.map Prod.fst) ∧ (keysOf t).Nodup := by
  have hdk := dedupKeys_eq_canonNames (data.map Prod.fst) hDF
  have hds := dedupSpecNames_eq_canonNames (data.map Prod.fst) hDF
  have hnd : (dedupKeys (data.map Prod.fst)).Nodup := by
    rw [hdk]
    exact canonNames_nodup _ hDF
  have hlen : (dedupKeys (data.map Prod.fst)).length =
      (data.map Prod.snd).length := by
    rw [hdk]
    unfold canonNames
    rw [List.length_map, List.length_range, List.length_map, List.length_map]
  unfold mkTable at hok
  have hzip_fst : (((dedupKeys (data.map Prod.fst)).zip
      (data.map Prod.snd)).map Prod.fst) = dedupKeys (data.map Prod.fst) :=
    List.map_fst_zip _ _ (by rw [hlen])
  have ht := foldlM_setCol_inv _ [] t
    (by
      show (keysOf ([] : Columns α) ++ _).Nodup
      rw [show keysOf ([] : Columns α) = [] from rfl, List.nil_append,
        hzip_fst]
      exact hnd)
    hok
  rw [List.nil_append] at ht
  have hkt : keysOf t = dedupKeys (data.map Prod.fst) := by
    rw [ht]
    show (((dedupKeys (data.map Prod.fst)).zip
      (data.map Prod.snd)).map Prod.fst) = _
    exact hzip_fst
  refine ⟨?_, ?_⟩
  · rw [hkt, hdk, hds]
  · rw [hkt]
    exact hnd

/-- C1 witness: constructing from `[("x",[1]),("x",[2])]` (duplicate name
`"x"`, dash-free) stores the names `["x", "x-1"]`, matching the claim's
renaming procedure. -/
theorem construct_dedup_names_witness :
    keysOf [("x", [(1 : Int)]), ("x-1", [2])] =
      dedupSpecNames ([("x", [(1 : Int)]), ("x", [2])].map Prod.fst) ∧
    (keysOf [("x", [(1 : Int)]), ("x-1", [2])]).Nodup :=
  construct_dedup_names [("x", [(1 : Int)]), ("x", [2])]
    [("x", [(1 : Int)]), ("x-1", [2])]
    (by unfold DashFreeDups; decide)
    (by decide)

/-- C1 counterexample: for the source names `["a","a","a-1","a-1"]` the code
stores `["a","a-1-1","a-1-2","a-1-3"]`.  The name `"a-1"` is a duplicated
base whose first occurrence (position 2) is NOT kept bare — it is stored as
`"a-1-2"` — and the stored names differ from the claim's renaming procedure,
refuting the unconditional claim. -/
theorem construct_dedup_names_counterexample :
    mkTable [("a", [(0 : Int)]), ("a", [0]), ("a-1", [0]), ("a-1", [0])] =
      Except.ok [("a", [(0 : Int)]), ("a-1-1", [0]), ("a-1-2", [0]),
        ("a-1-3", [0])] ∧
    1 < (["a", "a", "a-1", "a-1"].count "a-1") ∧
    ["a", "a", "a-1", "a-1"].getD 2 "" = "a-1" ∧
    (["a", "a", "a-1", "a-1"].take 2).count "a-1" = 0 ∧
    (keysOf [("a", [(0 : Int)]), ("a-1-1", [0]), ("a-1-2", [0]),
      ("a-1-3", [0])]).getD 2 "" ≠ "a-1" ∧
    keysOf [("a", [(0 : Int)]), ("a-1-1", [0]), ("a-1-2", [0]),
      ("a-1-3", [0])] ≠ dedupSpecNames ["a", "a", "a-1", "a-1"] := by
  refine ⟨by decide, by decide, by decide, by decide, by decide, by decide⟩

end ToyData
